import Mathlib

/-!
Verification of the MCS queue lock from mcs-rs (src/mutex.rs, src/pause.rs).

Two shallow embeddings of the source are developed.

First, a sequential, trace-producing embedding of each operation
(`Mcs.try_lock`, `Mcs.lock`, `Mcs.guardDrop`).  Every shared-memory access the
source performs is recorded as an `Mcs.Event` together with the
`core::sync::atomic::Ordering` argument the source passes.  The values
returned by the loads inside a busy-wait loop are produced concurrently by
other threads in the source, so here they are supplied by an environment
function, and the loops are run with explicit fuel.

Second, an interleaving operational semantics (`Mcs.Step`) for any number of
threads running lock / increment / unlock cycles on one mutex, with
sequentially consistent semantics for the atomic accesses.  It is used for
the mutual-exclusion, counter and tail-null queue invariants.
-/

namespace Mcs

/-- The `core::sync::atomic::Ordering` values used by the source. -/
inductive MemOrdering where
  | relaxed
  | release
  | acquire
  | acqRel
  | seqCst
deriving DecidableEq

/-- `Slot` (src/mutex.rs): one field `next: AtomicPtr<AtomicBool>`.  Flag
cells (`AtomicBool` values living on waiting threads stacks) are named by
`Nat` ids; `none` is the null pointer. -/
structure Slot where
  next : Option Nat
deriving DecidableEq

/-- `Slot::new`: `Slot { next: AtomicPtr::new(ptr::null_mut()) }`. -/
def Slot.new : Slot := { next := none }

/-- `Mutex<T>` (src/mutex.rs): `queue: AtomicPtr<Slot>` (slot ids are `Nat`,
`none` is null) plus the protected payload `data: UnsafeCell<T>`. -/
structure Mutex (T : Type) where
  queue : Option Nat
  data : T

/-- `Mutex::new`: queue starts null, payload is the given value. -/
def Mutex.new (v : T) : Mutex T := { queue := none, data := v }

/-- `Mutex::into_inner`: `self.data.into_inner()`, the payload by value. -/
def Mutex.into_inner (m : Mutex T) : T := m.data

/-- Writing the payload through the `&mut T` returned by `Mutex::get_mut`. -/
def Mutex.get_mut_write (m : Mutex T) (v : T) : Mutex T := { m with data := v }

/-- The whole memory a sequential run works on: the mutex, every slot and
every flag cell. -/
structure Mem (T : Type) where
  mutex : Mutex T
  slots : Nat → Slot
  flags : Nat → Bool

/-- One shared-memory access of the source, with the ordering it passes. -/
inductive Event where
  /-- `slot.next = AtomicPtr::new(v)`: plain overwrite of the next field. -/
  | slotNextWrite (slot : Nat) (v : Option Nat)
  /-- `self.queue.swap(slot, ord)`, returning the previous tail. -/
  | queueSwap (new : Nat) (prev : Option Nat) (ord : MemOrdering)
  /-- `self.queue.compare_exchange(expected, new, ord, ordFail)`. -/
  | queueCas (expected : Option Nat) (new : Option Nat) (ok : Bool)
      (ord : MemOrdering) (ordFail : MemOrdering)
  /-- `pred.next.store(v, ord)`. -/
  | nextStore (slot : Nat) (v : Option Nat) (ord : MemOrdering)
  /-- `self.slot.next.load(ord)`. -/
  | nextLoad (slot : Nat) (v : Option Nat) (ord : MemOrdering)
  /-- `let locked = AtomicBool::new(v)`: creation of the private flag. -/
  | flagInit (flag : Nat) (v : Bool)
  /-- `locked.load(ord)`. -/
  | flagLoad (flag : Nat) (v : Bool) (ord : MemOrdering)
  /-- `succ.store(v, ord)`. -/
  | flagStore (flag : Nat) (v : Bool) (ord : MemOrdering)
  /-- `fence(ord)`. -/
  | fence (ord : MemOrdering)
  /-- `pause()` (src/pause.rs): one busy-wait hint iteration. -/
  | pause
  /-- a read of the payload through the guard (`MutexGuard::deref`). -/
  | dataRead
  /-- a write of the payload through the guard (`MutexGuard::deref_mut`). -/
  | dataWrite
deriving DecidableEq

/-- `Mutex::try_lock` (src/mutex.rs lines 100-107):
`slot.next = AtomicPtr::new(ptr::null_mut());` then
`self.queue.compare_exchange(ptr::null_mut(), slot, Acquire, Relaxed)`;
a guard is returned exactly when the compare-exchange succeeds.
Returns (memory after, whether a guard was returned, trace). -/
def try_lock (m : Mem T) (slot : Nat) : Mem T × Bool × List Event :=
  let m1 : Mem T := { m with slots := Function.update m.slots slot Slot.new }
  match m1.mutex.queue with
  | none =>
      ({ m1 with mutex := { m1.mutex with queue := some slot } }, true,
        [Event.slotNextWrite slot none,
         Event.queueCas none (some slot) true MemOrdering.acquire MemOrdering.relaxed])
  | some _ =>
      (m1, false,
        [Event.slotNextWrite slot none,
         Event.queueCas none (some slot) false MemOrdering.acquire MemOrdering.relaxed])

/-- The busy wait `while locked.load(Relaxed) { pause(); }` in `Mutex::lock`.
`env i` is the value the i-th load of the private flag returns (the flag is
written concurrently by the predecessor during its guard drop).  `none` means
the fuel ran out before a `false` was read. -/
def lockSpin (flag : Nat) (env : Nat → Bool) : Nat → Nat → Option (List Event)
  | 0, _ => none
  | fuel + 1, i =>
    if env i then
      (lockSpin flag env fuel (i + 1)).map
        (fun tr => Event.flagLoad flag true MemOrdering.relaxed :: Event.pause :: tr)
    else
      some [Event.flagLoad flag false MemOrdering.relaxed]

/-- The trace the waiting loop produces when it reads `true` exactly `j`
times before reading `false`. -/
def lockSpinTrace (flag : Nat) : Nat → List Event
  | 0 => [Event.flagLoad flag false MemOrdering.relaxed]
  | j + 1 =>
      Event.flagLoad flag true MemOrdering.relaxed :: Event.pause :: lockSpinTrace flag j

/-- `Mutex::lock` (src/mutex.rs lines 116-131).  `flag` is the id of the
fresh stack-resident `locked: AtomicBool` of this call; `env` gives the
values the flag loads return; `fuel` bounds the busy wait. -/
def lock (m : Mem T) (slot : Nat) (flag : Nat) (env : Nat → Bool) (fuel : Nat) :
    Option (Mem T × List Event) :=
  -- slot.next = AtomicPtr::new(ptr::null_mut());
  let m1 : Mem T := { m with slots := Function.update m.slots slot Slot.new }
  -- let pred = self.queue.swap(slot, Ordering::AcqRel);
  let pred := m1.mutex.queue
  let m2 : Mem T := { m1 with mutex := { m1.mutex with queue := some slot } }
  let tr0 := [Event.slotNextWrite slot none, Event.queueSwap slot pred MemOrdering.acqRel]
  match pred with
  | none => some (m2, tr0)
  | some p =>
    -- let locked = AtomicBool::new(true);
    let m3 : Mem T := { m2 with flags := Function.update m2.flags flag true }
    -- pred.next.store(&locked as *const _ as *mut _, Ordering::Release);
    let m4 : Mem T := { m3 with slots := Function.update m3.slots p { next := some flag } }
    -- while locked.load(Ordering::Relaxed) { pause(); }  fence(Ordering::Acquire);
    match lockSpin flag env fuel 0 with
    | none => none
    | some trSpin =>
      some (m4, tr0 ++ Event.flagInit flag true :: Event.nextStore p (some flag) MemOrdering.release ::
        trSpin ++ [Event.fence MemOrdering.acquire])

/-- The loop `loop { succ = self.slot.next.load(Relaxed); if !succ.is_null()
break; pause() }` in `guard_drop_impl`.  `env i` is the value the i-th load
of the slot next field returns (written concurrently by the registering
successor). -/
def dropSpin (slot : Nat) (env : Nat → Option Nat) : Nat → Nat → Option (Nat × List Event)
  | 0, _ => none
  | fuel + 1, i =>
    match env i with
    | some f => some (f, [Event.nextLoad slot (some f) MemOrdering.relaxed])
    | none =>
      (dropSpin slot env fuel (i + 1)).map
        (fun r => (r.1, Event.nextLoad slot none MemOrdering.relaxed :: Event.pause :: r.2))

/-- The trace the register-wait loop produces when it reads null exactly `j`
times before reading the successor flag pointer `f`. -/
def dropSpinTrace (slot : Nat) (f : Nat) : Nat → List Event
  | 0 => [Event.nextLoad slot (some f) MemOrdering.relaxed]
  | j + 1 =>
      Event.nextLoad slot none MemOrdering.relaxed :: Event.pause :: dropSpinTrace slot f j

/-- `guard_drop_impl` (src/mutex.rs lines 189-227), the release protocol run
when a `MutexGuard` is dropped.  All loads of the owning slot next field
return the environment values `env 0, env 1, ...` (the successor registers
itself concurrently); the compare-exchange sees the queue value stored in
`m`. -/
def guardDrop (m : Mem T) (slot : Nat) (env : Nat → Option Nat) (fuel : Nat) :
    Option (Mem T × List Event) :=
  -- let mut succ = self.slot.next.load(Ordering::Relaxed);
  match env 0 with
  | some f =>
    -- fence(Ordering::Acquire); let succ = unsafe { &*succ };
    -- succ.store(false, Ordering::Release);
    some ({ m with flags := Function.update m.flags f false },
      [Event.nextLoad slot (some f) MemOrdering.relaxed,
       Event.fence MemOrdering.acquire,
       Event.flagStore f false MemOrdering.release])
  | none =>
    -- self.lock.queue.compare_exchange(self.slot, null, Release, Relaxed)
    if m.mutex.queue = some slot then
      -- No one was waiting: release is complete.
      some ({ m with mutex := { m.mutex with queue := none } },
        [Event.nextLoad slot none MemOrdering.relaxed,
         Event.queueCas (some slot) none true MemOrdering.release MemOrdering.relaxed])
    else
      -- Some thread is waiting but has not registered yet: spin for it.
      match dropSpin slot env fuel 1 with
      | none => none
      | some (f, trSpin) =>
        some ({ m with flags := Function.update m.flags f false },
          Event.nextLoad slot none MemOrdering.relaxed ::
            Event.queueCas (some slot) none false MemOrdering.release MemOrdering.relaxed ::
            trSpin ++ [Event.fence MemOrdering.acquire, Event.flagStore f false MemOrdering.release])

/-- `MutexGuard::deref`: `unsafe { &*self.lock.data.get() }`. -/
def guardDeref (m : Mem T) : T × List Event := (m.mutex.data, [Event.dataRead])

/-- Writing `v` through `MutexGuard::deref_mut`. -/
def guardDerefMutWrite (m : Mem T) (v : T) : Mem T × List Event :=
  ({ m with mutex := { m.mutex with data := v } }, [Event.dataWrite])

/-- A destructor side effect of the payload. -/
inductive DropEffect where
  | payloadDropped
deriving DecidableEq

/-- Modelled from the spec: the Rust move semantics of
`UnsafeCell::into_inner`, which is language behaviour and not code of this
repository.  Consuming the mutex moves the payload out without running its
destructor, so the consumption itself emits no destructor effect. -/
def intoInnerEffects : List DropEffect := []

/-- Modelled from the spec: destroying the value returned by `into_inner`
runs the payload destructor exactly once. -/
def destroyReturnedEffects : List DropEffect := [DropEffect.payloadDropped]

/-- A completely idle concrete memory, used by witnesses. -/
def memIdle : Mem Nat :=
  { mutex := Mutex.new 0, slots := fun _ => Slot.new, flags := fun _ => false }

/-- A concrete memory whose mutex tail already holds slot 0, used by
witnesses and the C2 counterexample. -/
def memBusy : Mem Nat :=
  { mutex := { queue := some 0, data := 0 }, slots := fun _ => Slot.new,
    flags := fun _ => true }

/-- If the flag loads return `true` exactly `j` times and then `false`, the
acquire busy wait returns the corresponding trace. -/
theorem lockSpin_eq (flag : Nat) (env : Nat → Bool) :
    ∀ (j i fuel : Nat), (∀ l, l < j → env (i + l) = true) → env (i + j) = false →
      j < fuel → lockSpin flag env fuel i = some (lockSpinTrace flag j) := by
  intro j
  induction j with
  | zero =>
      intro i fuel h0 hj hfuel
      match fuel, hfuel with
      | fuel + 1, _ =>
        have hi : env i = false := by simpa using hj
        simp [lockSpin, hi, lockSpinTrace]
  | succ j ih =>
      intro i fuel h0 hj hfuel
      match fuel, hfuel with
      | fuel + 1, hfuel =>
        have hi : env i = true := by simpa using h0 0 (Nat.succ_pos j)
        have harg : ∀ l, l < j → env (i + 1 + l) = true := by
          intro l hl
          have h2 := h0 (l + 1) (by omega)
          have h3 : i + (l + 1) = i + 1 + l := by omega
          rwa [h3] at h2
        have hj2 : env (i + 1 + j) = false := by
          have h3 : i + (j + 1) = i + 1 + j := by omega
          rwa [h3] at hj
        have hrec := ih (i + 1) fuel harg hj2 (by omega)
        simp [lockSpin, hi, hrec, lockSpinTrace]

/-- If the slot next loads return null exactly `j` times and then the flag
pointer `f`, the register wait returns the corresponding trace. -/
theorem dropSpin_eq (slot : Nat) (env : Nat → Option Nat) (f : Nat) :
    ∀ (j i fuel : Nat), (∀ l, l < j → env (i + l) = none) → env (i + j) = some f →
      j < fuel → dropSpin slot env fuel i = some (f, dropSpinTrace slot f j) := by
  intro j
  induction j with
  | zero =>
      intro i fuel h0 hj hfuel
      match fuel, hfuel with
      | fuel + 1, _ =>
        have hi : env i = some f := by simpa using hj
        simp [dropSpin, hi, dropSpinTrace]
  | succ j ih =>
      intro i fuel h0 hj hfuel
      match fuel, hfuel with
      | fuel + 1, hfuel =>
        have hi : env i = none := by simpa using h0 0 (Nat.succ_pos j)
        have harg : ∀ l, l < j → env (i + 1 + l) = none := by
          intro l hl
          have h2 := h0 (l + 1) (by omega)
          have h3 : i + (l + 1) = i + 1 + l := by omega
          rwa [h3] at h2
        have hj2 : env (i + 1 + j) = some f := by
          have h3 : i + (j + 1) = i + 1 + j := by omega
          rwa [h3] at hj
        have hrec := ih (i + 1) fuel harg hj2 (by omega)
        simp [dropSpin, hi, hrec, dropSpinTrace]

/-- Every event of the register-wait trace is a relaxed next load or a
pause. -/
theorem mem_dropSpinTrace (slot f : Nat) :
    ∀ (k : Nat) (e : Event), e ∈ dropSpinTrace slot f k →
      e = Event.nextLoad slot (some f) MemOrdering.relaxed ∨
      e = Event.nextLoad slot none MemOrdering.relaxed ∨ e = Event.pause := by
  intro k
  induction k with
  | zero =>
      intro e he
      simp [dropSpinTrace] at he
      exact Or.inl he
  | succ k ih =>
      intro e he
      simp [dropSpinTrace] at he
      rcases he with h | h | h
      · exact Or.inr (Or.inl h)
      · exact Or.inr (Or.inr h)
      · exact ih e h

/-- Every event of the acquire busy-wait trace is a relaxed flag load or a
pause. -/
theorem mem_lockSpinTrace (flag : Nat) :
    ∀ (k : Nat) (e : Event), e ∈ lockSpinTrace flag k →
      e = Event.flagLoad flag false MemOrdering.relaxed ∨
      e = Event.flagLoad flag true MemOrdering.relaxed ∨ e = Event.pause := by
  intro k
  induction k with
  | zero =>
      intro e he
      simp [lockSpinTrace] at he
      exact Or.inl he
  | succ k ih =>
      intro e he
      simp [lockSpinTrace] at he
      rcases he with h | h | h
      · exact Or.inr (Or.inl h)
      · exact Or.inr (Or.inr h)
      · exact ih e h

/-- No fence event occurs in the register-wait trace. -/
theorem fence_not_mem_dropSpinTrace (slot f k : Nat) (ord : MemOrdering) :
    Event.fence ord ∉ dropSpinTrace slot f k := by
  intro h
  rcases mem_dropSpinTrace slot f k _ h with h2 | h2 | h2 <;> exact Event.noConfusion h2

/-- No payload read occurs in the register-wait trace. -/
theorem dataRead_not_mem_dropSpinTrace (slot f k : Nat) :
    Event.dataRead ∉ dropSpinTrace slot f k := by
  intro h
  rcases mem_dropSpinTrace slot f k _ h with h2 | h2 | h2 <;> exact Event.noConfusion h2

/-- No payload write occurs in the register-wait trace. -/
theorem dataWrite_not_mem_dropSpinTrace (slot f k : Nat) :
    Event.dataWrite ∉ dropSpinTrace slot f k := by
  intro h
  rcases mem_dropSpinTrace slot f k _ h with h2 | h2 | h2 <;> exact Event.noConfusion h2

/-- C3: try_lock first resets the slot successor to none, then
compare-exchanges the tail from null to the slot; it returns a guard if and
only if the tail was null, and on contention it returns an absent guard
without enqueueing, leaving the tail (and everything else in the mutex)
unchanged. -/
theorem try_lock_success_iff_idle (T : Type) (m : Mem T) (slot : Nat) :
    ((try_lock m slot).2.1 = true ↔ m.mutex.queue = none) ∧
    (try_lock m slot).1.mutex.queue = some (m.mutex.queue.getD slot) ∧
    (try_lock m slot).1.mutex.data = m.mutex.data ∧
    (try_lock m slot).1.slots = Function.update m.slots slot Slot.new ∧
    (try_lock m slot).1.flags = m.flags ∧
    (try_lock m slot).2.2 =
      [Event.slotNextWrite slot none,
       Event.queueCas none (some slot) ((try_lock m slot).2.1)
         MemOrdering.acquire MemOrdering.relaxed] := by
  cases h : m.mutex.queue <;> simp [try_lock, h]

/-- C10: a failed try_lock leaves the mutex (tail and payload) unchanged,
but still mutates the caller slot: its successor is reset to none before the
compare-exchange, and after every try_lock call, successful or not, the slot
successor is none. -/
theorem try_lock_resets_slot_next (T : Type) (m : Mem T) (slot : Nat)
    (hbusy : m.mutex.queue ≠ none) :
    (∀ (m2 : Mem T) (s2 : Nat), ((try_lock m2 s2).1.slots s2).next = none) ∧
    ((try_lock m slot).2.2).head? = some (Event.slotNextWrite slot none) ∧
    (try_lock m slot).2.1 = false ∧
    (try_lock m slot).1.mutex = m.mutex := by
  refine ⟨?_, ?_, ?_, ?_⟩
  · intro m2 s2
    cases h : m2.mutex.queue <;> simp [try_lock, h, Slot.new]
  · cases h : m.mutex.queue <;> simp [try_lock, h]
  · cases h : m.mutex.queue
    · exact absurd h hbusy
    · simp [try_lock, h]
  · cases h : m.mutex.queue
    · exact absurd h hbusy
    · simp [try_lock, h]

/-- C10 witness: try_lock on a held mutex with slot 1. -/
theorem try_lock_resets_slot_next_witness :
    (∀ (m2 : Mem Nat) (s2 : Nat), ((try_lock m2 s2).1.slots s2).next = none) ∧
    ((try_lock memBusy 1).2.2).head? = some (Event.slotNextWrite 1 none) ∧
    (try_lock memBusy 1).2.1 = false ∧
    (try_lock memBusy 1).1.mutex = memBusy.mutex :=
  try_lock_resets_slot_next Nat memBusy 1 (by simp [memBusy])

/-- C4: lock resets the slot successor, swaps the tail to the slot obtaining
the predecessor; with no predecessor it returns a guard at once; otherwise
it publishes a flag that starts out locked into the predecessor successor
field with a release store, busy-waits with a pause per iteration until the
flag reads unlocked, issues an acquire fence, and returns a guard. -/
theorem lock_protocol (T : Type) (m : Mem T) (slot : Nat) (flag : Nat)
    (env : Nat → Bool) (fuel j : Nat)
    (hj : env j = false) (hlt : ∀ i, i < j → env i = true) (hfuel : j < fuel) :
    lock m slot flag env fuel = some (
      { mutex := { queue := some slot, data := m.mutex.data },
        slots := (match m.mutex.queue with
          | none => Function.update m.slots slot Slot.new
          | some p => Function.update (Function.update m.slots slot Slot.new) p
              { next := some flag }),
        flags := (match m.mutex.queue with
          | none => m.flags
          | some _ => Function.update m.flags flag true) },
      [Event.slotNextWrite slot none,
       Event.queueSwap slot m.mutex.queue MemOrdering.acqRel] ++
      (match m.mutex.queue with
       | none => []
       | some p =>
          Event.flagInit flag true ::
            Event.nextStore p (some flag) MemOrdering.release ::
            lockSpinTrace flag j ++ [Event.fence MemOrdering.acquire])) := by
  have hspin := lockSpin_eq flag env j 0 fuel (by simpa using hlt) (by simpa using hj) hfuel
  cases h : m.mutex.queue <;> simp [lock, h, hspin]

/-- C4 witness: lock behind a predecessor, one spin iteration. -/
theorem lock_protocol_witness :
    lock memBusy 1 2 (fun i => decide (i < 1)) 2 = some (
      { mutex := { queue := some 1, data := memBusy.mutex.data },
        slots := Function.update (Function.update memBusy.slots 1 Slot.new) 0
            { next := some 2 },
        flags := Function.update memBusy.flags 2 true },
      [Event.slotNextWrite 1 none,
       Event.queueSwap 1 (some 0) MemOrdering.acqRel,
       Event.flagInit 2 true,
       Event.nextStore 0 (some 2) MemOrdering.release] ++
        lockSpinTrace 2 1 ++ [Event.fence MemOrdering.acquire]) := by
  have h := lock_protocol Nat memBusy 1 2 (fun i => decide (i < 1)) 2 1
    (by decide) (by decide) (by decide)
  simpa [memBusy] using h

/-- C2 counterexample: in the release protocol the fence issued between
obtaining the successor reference and the hand-off store is acquire-ordered,
not release-ordered.  At this concrete input the whole guard drop trace is
computed and contains no release fence at all. -/
theorem drop_fence_not_release_cex :
    (guardDrop memBusy 3 (fun _ => some 7) 5).map (fun r => r.2) =
      some [Event.nextLoad 3 (some 7) MemOrdering.relaxed,
            Event.fence MemOrdering.acquire,
            Event.flagStore 7 false MemOrdering.release] ∧
    Event.fence MemOrdering.release ∉
      [Event.nextLoad 3 (some 7) MemOrdering.relaxed,
       Event.fence MemOrdering.acquire,
       Event.flagStore 7 false MemOrdering.release] := by
  constructor
  · rfl
  · decide

/-- C2 (amended): once the successor reference has been obtained, an
acquire-ordered fence is issued and then the successor flag is set to
unlocked with a release-ordered store; no release fence precedes the
store. -/
theorem drop_handoff_acquire_fence_then_release_store (T : Type) (m : Mem T)
    (slot : Nat) (env : Nat → Option Nat) (fuel j f : Nat)
    (hj : env j = some f) (hlt : ∀ i, i < j → env i = none) (hfuel : j < fuel)
    (hnocas : j = 0 ∨ m.mutex.queue ≠ some slot) :
    ∃ mem2 pre, guardDrop m slot env fuel =
        some (mem2, pre ++ [Event.fence MemOrdering.acquire,
                            Event.flagStore f false MemOrdering.release]) ∧
      mem2.flags f = false ∧
      Event.fence MemOrdering.release ∉ pre := by
  rcases Nat.eq_zero_or_pos j with hz | hpos
  · subst hz
    refine ⟨{ m with flags := Function.update m.flags f false },
      [Event.nextLoad slot (some f) MemOrdering.relaxed], ?_, ?_, ?_⟩
    · simp [guardDrop, hj]
    · simp
    · simp
  · have h0 : env 0 = none := hlt 0 hpos
    have hq : m.mutex.queue ≠ some slot := by
      rcases hnocas with hz | hq
      · omega
      · exact hq
    have hspin : dropSpin slot env fuel 1 = some (f, dropSpinTrace slot f (j - 1)) := by
      apply dropSpin_eq slot env f (j - 1) 1 fuel
      · intro l hl
        exact hlt (1 + l) (by omega)
      · have h3 : 1 + (j - 1) = j := by omega
        rw [h3]; exact hj
      · omega
    refine ⟨{ m with flags := Function.update m.flags f false },
      Event.nextLoad slot none MemOrdering.relaxed ::
        Event.queueCas (some slot) none false MemOrdering.release MemOrdering.relaxed ::
        dropSpinTrace slot f (j - 1), ?_, ?_, ?_⟩
    · simp [guardDrop, h0, hq, hspin]
    · simp
    · simp [fence_not_mem_dropSpinTrace]

/-- C2 witness: successor already registered at the first load. -/
theorem drop_handoff_acquire_fence_then_release_store_witness :
    ∃ mem2 pre, guardDrop memBusy 3 (fun _ => some 7) 5 =
        some (mem2, pre ++ [Event.fence MemOrdering.acquire,
                            Event.flagStore 7 false MemOrdering.release]) ∧
      mem2.flags 7 = false ∧
      Event.fence MemOrdering.release ∉ pre :=
  drop_handoff_acquire_fence_then_release_store Nat memBusy 3 (fun _ => some 7)
    5 0 7 rfl (by omega) (by omega) (Or.inl rfl)

/-- C5: the guard release protocol reads the slot successor; if none it
compare-exchanges the tail from the slot to null and on success the release
is complete with no further action; if the compare-exchange fails, it
busy-waits with a pause per iteration, re-reading the successor until it is
non-null, before performing the hand-off; if the successor was already set
it proceeds directly to the hand-off. -/
theorem guard_drop_release_protocol (T : Type) (m : Mem T) (slot : Nat)
    (env : Nat → Option Nat) (fuel j f : Nat)
    (hj : env j = some f) (hlt : ∀ i, i < j → env i = none) (hfuel : j < fuel) :
    (m.mutex.queue = some slot → 0 < j →
      guardDrop m slot env fuel =
        some ({ m with mutex := { m.mutex with queue := none } },
          [Event.nextLoad slot none MemOrdering.relaxed,
           Event.queueCas (some slot) none true MemOrdering.release
             MemOrdering.relaxed])) ∧
    (m.mutex.queue ≠ some slot → 0 < j →
      guardDrop m slot env fuel =
        some ({ m with flags := Function.update m.flags f false },
          Event.nextLoad slot none MemOrdering.relaxed ::
            Event.queueCas (some slot) none false MemOrdering.release
              MemOrdering.relaxed ::
            dropSpinTrace slot f (j - 1) ++
              [Event.fence MemOrdering.acquire,
               Event.flagStore f false MemOrdering.release])) ∧
    (j = 0 →
      guardDrop m slot env fuel =
        some ({ m with flags := Function.update m.flags f false },
          [Event.nextLoad slot (some f) MemOrdering.relaxed,
           Event.fence MemOrdering.acquire,
           Event.flagStore f false MemOrdering.release])) := by
  refine ⟨?_, ?_, ?_⟩
  · intro hq hpos
    have h0 : env 0 = none := hlt 0 hpos
    simp [guardDrop, h0, hq]
  · intro hq hpos
    have h0 : env 0 = none := hlt 0 hpos
    have hspin : dropSpin slot env fuel 1 = some (f, dropSpinTrace slot f (j - 1)) := by
      apply dropSpin_eq slot env f (j - 1) 1 fuel
      · intro l hl
        exact hlt (1 + l) (by omega)
      · have h3 : 1 + (j - 1) = j := by omega
        rw [h3]; exact hj
      · omega
    simp [guardDrop, h0, hq, hspin]
  · intro hz
    subst hz
    simp [guardDrop, hj]

/-- C5 witness: the un-contended compare-exchange path. -/
theorem guard_drop_release_protocol_witness :
    ((memBusy.mutex.queue = some 0 → 0 < 1 →
      guardDrop memBusy 0 (fun i => if i = 0 then none else some 7) 3 =
        some ({ memBusy with mutex := { memBusy.mutex with queue := none } },
          [Event.nextLoad 0 none MemOrdering.relaxed,
           Event.queueCas (some 0) none true MemOrdering.release
             MemOrdering.relaxed])) ∧
    (memBusy.mutex.queue ≠ some 0 → 0 < 1 →
      guardDrop memBusy 0 (fun i => if i = 0 then none else some 7) 3 =
        some ({ memBusy with flags := Function.update memBusy.flags 7 false },
          Event.nextLoad 0 none MemOrdering.relaxed ::
            Event.queueCas (some 0) none false MemOrdering.release
              MemOrdering.relaxed ::
            dropSpinTrace 0 7 0 ++
              [Event.fence MemOrdering.acquire,
               Event.flagStore 7 false MemOrdering.release])) ∧
    (1 = 0 →
      guardDrop memBusy 0 (fun i => if i = 0 then none else some 7) 3 =
        some ({ memBusy with flags := Function.update memBusy.flags 7 false },
          [Event.nextLoad 0 (some 7) MemOrdering.relaxed,
           Event.fence MemOrdering.acquire,
           Event.flagStore 7 false MemOrdering.release]))) :=
  guard_drop_release_protocol Nat memBusy 0 (fun i => if i = 0 then none else some 7)
    3 1 7 rfl (by decide) (by decide)

/-- C8: the guard drop touches only queue metadata: the payload is never
read or written, the final payload equals the initial one, and no slot next
field is written during the drop. -/
theorem guard_drop_touches_no_payload (T : Type) (m : Mem T) (slot : Nat)
    (env : Nat → Option Nat) (fuel j f : Nat)
    (hj : env j = some f) (hlt : ∀ i, i < j → env i = none) (hfuel : j < fuel) :
    ∃ mem2 tr, guardDrop m slot env fuel = some (mem2, tr) ∧
      mem2.mutex.data = m.mutex.data ∧
      mem2.slots = m.slots ∧
      Event.dataRead ∉ tr ∧ Event.dataWrite ∉ tr := by
  rcases Nat.eq_zero_or_pos j with hz | hpos
  · subst hz
    refine ⟨{ m with flags := Function.update m.flags f false },
      [Event.nextLoad slot (some f) MemOrdering.relaxed,
       Event.fence MemOrdering.acquire,
       Event.flagStore f false MemOrdering.release], ?_, rfl, rfl, by simp, by simp⟩
    simp [guardDrop, hj]
  · have h0 : env 0 = none := hlt 0 hpos
    by_cases hq : m.mutex.queue = some slot
    · refine ⟨{ m with mutex := { m.mutex with queue := none } },
        [Event.nextLoad slot none MemOrdering.relaxed,
         Event.queueCas (some slot) none true MemOrdering.release MemOrdering.relaxed],
        ?_, rfl, rfl, by simp, by simp⟩
      simp [guardDrop, h0, hq]
    · have hspin : dropSpin slot env fuel 1 = some (f, dropSpinTrace slot f (j - 1)) := by
        apply dropSpin_eq slot env f (j - 1) 1 fuel
        · intro l hl
          exact hlt (1 + l) (by omega)
        · have h3 : 1 + (j - 1) = j := by omega
          rw [h3]; exact hj
        · omega
      refine ⟨{ m with flags := Function.update m.flags f false },
        Event.nextLoad slot none MemOrdering.relaxed ::
          Event.queueCas (some slot) none false MemOrdering.release MemOrdering.relaxed ::
          dropSpinTrace slot f (j - 1) ++
            [Event.fence MemOrdering.acquire,
             Event.flagStore f false MemOrdering.release], ?_, rfl, rfl, ?_, ?_⟩
      · simp [guardDrop, h0, hq, hspin]
      · simp [dataRead_not_mem_dropSpinTrace]
      · simp [dataWrite_not_mem_dropSpinTrace]

/-- C8 witness: drop with the successor already registered. -/
theorem guard_drop_touches_no_payload_witness :
    ∃ mem2 tr, guardDrop memBusy 3 (fun _ => some 7) 5 = some (mem2, tr) ∧
      mem2.mutex.data = memBusy.mutex.data ∧
      mem2.slots = memBusy.slots ∧
      Event.dataRead ∉ tr ∧ Event.dataWrite ∉ tr :=
  guard_drop_touches_no_payload Nat memBusy 3 (fun _ => some 7) 5 0 7 rfl
    (by omega) (by omega)

/-- C7: consuming the mutex returns exactly the payload last written into it
(at construction, through get_mut, or through a guard), and the destructor
side effect of the payload fires exactly once, on destruction of the
returned value and not on consumption itself (the move semantics of
into_inner is modelled from the spec). -/
theorem into_inner_semantics (T : Type) (v w u : T) (m : Mutex T) (mem : Mem T) :
    (Mutex.new v).into_inner = v ∧
    (Mutex.get_mut_write m w).into_inner = w ∧
    ((guardDerefMutWrite mem u).1).mutex.into_inner = u ∧
    intoInnerEffects = ([] : List DropEffect) ∧
    intoInnerEffects ++ destroyReturnedEffects = [DropEffect.payloadDropped] := by
  exact ⟨rfl, rfl, rfl, rfl, rfl⟩

/-- C9: a payload write through get_mut is observed by the next lock on the
same mutex: the guard returned by that lock dereferences to the written
value. -/
theorem get_mut_visible_to_next_lock (T : Type) (mem : Mem T) (v : T)
    (slot flag : Nat) (env : Nat → Bool) (fuel : Nat)
    (hidle : mem.mutex.queue = none) :
    ∃ mem2,
      lock { mem with mutex := Mutex.get_mut_write mem.mutex v } slot flag env fuel =
        some (mem2, [Event.slotNextWrite slot none,
                     Event.queueSwap slot none MemOrdering.acqRel]) ∧
      (guardDeref mem2).1 = v := by
  refine ⟨{ mutex := { queue := some slot, data := v },
            slots := Function.update mem.slots slot Slot.new,
            flags := mem.flags }, ?_, rfl⟩
  simp [lock, Mutex.get_mut_write, hidle]

/-- C9 witness: write 42 through get_mut into an idle mutex, then lock. -/
theorem get_mut_visible_to_next_lock_witness :
    ∃ mem2,
      lock { memIdle with mutex := Mutex.get_mut_write memIdle.mutex 42 } 0 1
          (fun _ => false) 1 =
        some (mem2, [Event.slotNextWrite 0 none,
                     Event.queueSwap 0 none MemOrdering.acqRel]) ∧
      (guardDeref mem2).1 = 42 :=
  get_mut_visible_to_next_lock Nat memIdle 42 0 1 (fun _ => false) 1 rfl

/-!
The interleaving model.  `n` threads share one mutex protecting a `Nat`
counter (the scenario of the mutual exclusion property and of the test
`lots_and_lots`).  Thread `t` owns slot `t` (one caller-provided slot,
reused sequentially) and one private flag cell per acquisition, also named
`t`.  Every atomic access of the source is one transition; the busy waits
are the self-loop transitions.  Apart from lock / increment / unlock cycles
a thread may also attempt `try_lock` (the `tryCas` states), so that the
tail-null invariant is checked against every operation of the API.
-/

/-- Program counter of one thread.  In every constructor `k` is the number
of increments the thread has completed so far. -/
inductive TState (n : Nat) where
  /-- between iterations (also the initial and final state). -/
  | ready (k : Nat)
  /-- in `lock`: `slot.next` has been reset, the tail swap is next. -/
  | toSwap (k : Nat)
  /-- in `try_lock`: `slot.next` has been reset, the compare-exchange is next. -/
  | tryCas (k : Nat)
  /-- in `lock`: the swap returned predecessor `pred`; the store of the flag
  reference into `pred.next` is next. -/
  | toPublish (k : Nat) (pred : Fin n)
  /-- in `lock`: polling the private flag with relaxed loads. -/
  | spinning (k : Nat)
  /-- holding the lock, about to read the counter through the guard. -/
  | cs0 (k : Nat)
  /-- holding the lock, about to write `v + 1` through the guard. -/
  | cs1 (k : Nat) (v : Nat)
  /-- in the guard drop: about to load `slot.next`. -/
  | rel0 (k : Nat)
  /-- in the guard drop: the load returned null, the tail compare-exchange
  is next. -/
  | relCas (k : Nat)
  /-- in the guard drop: the compare-exchange failed, re-reading `slot.next`. -/
  | relSpin (k : Nat)
  /-- in the guard drop: successor obtained, the hand-off store is next. -/
  | handoff (k : Nat) (succ : Fin n)
deriving DecidableEq

/-- The shared state: the mutex tail, each slot next field (`next t` is the
next field of the slot owned by thread `t`; `some x` points to the private
flag of thread `x`), each private flag, the counter, and every thread
program counter. -/
structure GState (n : Nat) where
  tail : Option (Fin n)
  next : Fin n → Option (Fin n)
  flag : Fin n → Bool
  data : Nat
  ts : Fin n → TState n

/-- One atomic step of thread `t`; `iters` is the per-thread iteration
count.  Each constructor is one shared-memory access of src/mutex.rs. -/
inductive Step (iters : Nat) {n : Nat} (t : Fin n) : GState n → GState n → Prop where
  /-- `slot.next = AtomicPtr::new(ptr::null_mut())` at the top of `lock`. -/
  | lockReset (s : GState n) (k : Nat) :
      s.ts t = .ready k → k < iters →
      Step iters t s { s with next := Function.update s.next t none,
                              ts := Function.update s.ts t (.toSwap k) }
  /-- `slot.next = AtomicPtr::new(ptr::null_mut())` at the top of `try_lock`. -/
  | tryReset (s : GState n) (k : Nat) :
      s.ts t = .ready k → k < iters →
      Step iters t s { s with next := Function.update s.next t none,
                              ts := Function.update s.ts t (.tryCas k) }
  /-- the compare-exchange of `try_lock` with a null tail: a guard. -/
  | trySucc (s : GState n) (k : Nat) :
      s.ts t = .tryCas k → s.tail = none →
      Step iters t s { s with tail := some t,
                              ts := Function.update s.ts t (.cs0 k) }
  /-- the compare-exchange of `try_lock` with a non-null tail: no guard, no
  change to the queue. -/
  | tryFail (s : GState n) (k : Nat) :
      s.ts t = .tryCas k → s.tail ≠ none →
      Step iters t s { s with ts := Function.update s.ts t (.ready k) }
  /-- `self.queue.swap(slot, AcqRel)` returning null: a guard at once. -/
  | swapNone (s : GState n) (k : Nat) :
      s.ts t = .toSwap k → s.tail = none →
      Step iters t s { s with tail := some t,
                              ts := Function.update s.ts t (.cs0 k) }
  /-- `self.queue.swap(slot, AcqRel)` returning predecessor `p`. -/
  | swapSome (s : GState n) (k : Nat) (p : Fin n) :
      s.ts t = .toSwap k → s.tail = some p →
      Step iters t s { s with tail := some t,
                              ts := Function.update s.ts t (.toPublish k p) }
  /-- `let locked = AtomicBool::new(true)` followed by
  `pred.next.store(&locked, Release)`; the flag is private until the store
  publishes it, so both are one transition. -/
  | publish (s : GState n) (k : Nat) (p : Fin n) :
      s.ts t = .toPublish k p →
      Step iters t s { s with next := Function.update s.next p (some t),
                              flag := Function.update s.flag t true,
                              ts := Function.update s.ts t (.spinning k) }
  /-- `locked.load(Relaxed)` reading true: `pause()` and poll again. -/
  | spinTrue (s : GState n) (k : Nat) :
      s.ts t = .spinning k → s.flag t = true → Step iters t s s
  /-- `locked.load(Relaxed)` reading false: leave the loop (and the acquire
  fence), the guard is returned. -/
  | spinFalse (s : GState n) (k : Nat) :
      s.ts t = .spinning k → s.flag t = false →
      Step iters t s { s with ts := Function.update s.ts t (.cs0 k) }
  /-- the read of the counter through the guard. -/
  | csRead (s : GState n) (k : Nat) :
      s.ts t = .cs0 k →
      Step iters t s { s with ts := Function.update s.ts t (.cs1 k s.data) }
  /-- the write of `v + 1` through the guard; the guard drop begins. -/
  | csWrite (s : GState n) (k : Nat) (v : Nat) :
      s.ts t = .cs1 k v →
      Step iters t s { s with data := v + 1,
                              ts := Function.update s.ts t (.rel0 (k + 1)) }
  /-- `self.slot.next.load(Relaxed)` in the guard drop reading null. -/
  | relLoadNone (s : GState n) (k : Nat) :
      s.ts t = .rel0 k → s.next t = none →
      Step iters t s { s with ts := Function.update s.ts t (.relCas k) }
  /-- `self.slot.next.load(Relaxed)` in the guard drop reading successor `x`. -/
  | relLoadSome (s : GState n) (k : Nat) (x : Fin n) :
      s.ts t = .rel0 k → s.next t = some x →
      Step iters t s { s with ts := Function.update s.ts t (.handoff k x) }
  /-- `queue.compare_exchange(slot, null, Release, Relaxed)` succeeding: the
  release is complete. -/
  | relCasOk (s : GState n) (k : Nat) :
      s.ts t = .relCas k → s.tail = some t →
      Step iters t s { s with tail := none,
                              ts := Function.update s.ts t (.ready k) }
  /-- the compare-exchange failing: some thread swapped the tail already. -/
  | relCasFail (s : GState n) (k : Nat) :
      s.ts t = .relCas k → s.tail ≠ some t →
      Step iters t s { s with ts := Function.update s.ts t (.relSpin k) }
  /-- the re-read of `slot.next` still null: `pause()` and again. -/
  | relSpinNone (s : GState n) (k : Nat) :
      s.ts t = .relSpin k → s.next t = none → Step iters t s s
  /-- the re-read of `slot.next` reading successor `x`. -/
  | relSpinSome (s : GState n) (k : Nat) (x : Fin n) :
      s.ts t = .relSpin k → s.next t = some x →
      Step iters t s { s with ts := Function.update s.ts t (.handoff k x) }
  /-- the hand-off `succ.store(false, Release)` (after the acquire fence). -/
  | handoffStore (s : GState n) (k : Nat) (x : Fin n) :
      s.ts t = .handoff k x →
      Step iters t s { s with flag := Function.update s.flag x false,
                              ts := Function.update s.ts t (.ready k) }

/-- The initial state: `Mutex::new(0)` and every thread before its first
iteration. -/
def initState (n : Nat) : GState n :=
  { tail := none, next := fun _ => none, flag := fun _ => false, data := 0,
    ts := fun _ => .ready 0 }

/-- The states reachable by interleaving the threads. -/
def Reachable (n : Nat) (iters : Nat) (s : GState n) : Prop :=
  Relation.ReflTransGen (fun a b => ∃ t : Fin n, Step iters t a b) (initState n) s

/-- The thread is in the queue: it has swapped itself in and has not yet
completed its release. -/
def inQueue {n : Nat} : TState n → Bool
  | .toPublish _ _ => true
  | .spinning _ => true
  | .cs0 _ => true
  | .cs1 _ _ => true
  | .rel0 _ => true
  | .relCas _ => true
  | .relSpin _ => true
  | .handoff _ _ => true
  | _ => false

/-- The thread holds a guard and is dereferencing the payload. -/
def inCritical {n : Nat} : TState n → Bool
  | .cs0 _ => true
  | .cs1 _ _ => true
  | _ => false

/-- The number of completed increments recorded in a program counter. -/
def kOf {n : Nat} : TState n → Nat
  | .ready k => k
  | .toSwap k => k
  | .tryCas k => k
  | .toPublish k _ => k
  | .spinning k => k
  | .cs0 k => k
  | .cs1 k _ => k
  | .rel0 k => k
  | .relCas k => k
  | .relSpin k => k
  | .handoff k _ => k

/-- The thread owns the lock: it holds a guard (or runs its drop), or its
predecessor has already handed off to it while it still polls. -/
def isOwnerState {n : Nat} (s : GState n) (t : Fin n) : Prop :=
  (∃ k, s.ts t = .cs0 k) ∨ (∃ k v, s.ts t = .cs1 k v) ∨
  (∃ k, s.ts t = .rel0 k) ∨ (∃ k, s.ts t = .relCas k) ∨
  (∃ k, s.ts t = .relSpin k) ∨ (∃ k x, s.ts t = .handoff k x) ∨
  ((∃ k, s.ts t = .spinning k) ∧ s.flag t = false)

/-- The head of the queue satisfies this: it owns the lock, and if it is at
the hand-off its recorded successor is the next queue element and is the
value stored in its slot next field. -/
def ownerOk {n : Nat} (s : GState n) (t : Fin n) (rest : List (Fin n)) : Prop :=
  isOwnerState s t ∧
  ∀ (k : Nat) (x : Fin n), s.ts t = .handoff k x →
    rest.head? = some x ∧ s.next t = some x

/-- The queue link between consecutive elements `a` and `b`: either `b` has
swapped in behind `a` but not yet published (then `a.next` is still null),
or `b` has published its flag into `a.next` and polls it, still locked. -/
def lockedLink {n : Nat} (s : GState n) (a b : Fin n) : Prop :=
  ((∃ k, s.ts b = .toPublish k a) ∧ s.next a = none) ∨
  (s.next a = some b ∧ (∃ k, s.ts b = .spinning k) ∧ s.flag b = true)

/-- All consecutive pairs of the queue are correctly linked. -/
def pairsOk {n : Nat} (s : GState n) : List (Fin n) → Prop
  | [] => True
  | [_] => True
  | a :: b :: l => lockedLink s a b ∧ pairsOk s (b :: l)

/-- The whole-state invariant.  `q` is the queue in tail-swap order: the
head owns the lock, the others wait behind it. -/
structure QInv {n : Nat} (s : GState n) (q : List (Fin n)) : Prop where
  nodup : q.Nodup
  tail_eq : s.tail = q.getLast?
  mem_iff : ∀ t : Fin n, t ∈ q ↔ inQueue (s.ts t) = true
  head_owner : ∀ t : Fin n, q.head? = some t → ownerOk s t q.tail
  last_next : ∀ t : Fin n, q.getLast? = some t → s.next t = none
  links : pairsOk s q
  toSwap_next : ∀ (t : Fin n) (k : Nat), s.ts t = .toSwap k → s.next t = none
  tryCas_next : ∀ (t : Fin n) (k : Nat), s.ts t = .tryCas k → s.next t = none
  data_sum : s.data = ∑ t : Fin n, kOf (s.ts t)
  cs1_val : ∀ (t : Fin n) (k v : Nat), s.ts t = .cs1 k v → v = s.data

/-! List helpers. -/

theorem mem_of_head?_eq {α : Type} {l : List α} {a : α} (h : l.head? = some a) :
    a ∈ l := by
  cases l with
  | nil => cases h
  | cons b l2 =>
      simp at h
      simp [h]

theorem mem_of_getLast?_eq {α : Type} : ∀ {l : List α} {a : α},
    l.getLast? = some a → a ∈ l := by
  intro l
  induction l with
  | nil => intro a h; cases h
  | cons b l2 ih =>
      intro a h
      cases l2 with
      | nil =>
          simp at h
          simp [h]
      | cons c l3 =>
          rw [List.getLast?_cons_cons] at h
          exact List.mem_cons_of_mem b (ih h)

theorem getLast?_cons_ne_none {α : Type} : ∀ (l : List α) (a : α),
    (a :: l).getLast? ≠ none := by
  intro l
  induction l with
  | nil => intro a h; simp at h
  | cons b l2 ih =>
      intro a h
      rw [List.getLast?_cons_cons] at h
      exact ih b h

theorem eq_nil_of_getLast?_eq_none {α : Type} {l : List α}
    (h : l.getLast? = none) : l = [] := by
  cases l with
  | nil => rfl
  | cons a l2 => exact absurd h (getLast?_cons_ne_none l2 a)

theorem eq_singleton_of_head_last {α : Type} {q : List α} {t : α}
    (hnd : q.Nodup) (hh : q.head? = some t) (hl : q.getLast? = some t) :
    q = [t] := by
  cases q with
  | nil => cases hh
  | cons a l =>
      simp at hh
      cases l with
      | nil => rw [hh]
      | cons b l2 =>
          exfalso
          rw [List.getLast?_cons_cons] at hl
          have hmem : t ∈ b :: l2 := mem_of_getLast?_eq hl
          rw [← hh] at hmem
          exact (List.nodup_cons.mp hnd).1 hmem

theorem mem_of_mem_tail {α : Type} {l : List α} {a : α} (h : a ∈ l.tail) :
    a ∈ l := by
  cases l with
  | nil => cases h
  | cons b l2 => exact List.mem_cons_of_mem b h

theorem nodup_concat_of {α : Type} {l : List α} {t : α}
    (hnd : l.Nodup) (hnm : t ∉ l) : (l ++ [t]).Nodup := by
  rw [List.nodup_append]
  refine ⟨hnd, List.nodup_singleton t, ?_⟩
  intro x hx hxt
  simp at hxt
  subst hxt
  exact hnm hx

theorem head?_eq_get_zero {α : Type} (q : List α) (h : 0 < q.length) :
    q.head? = some (q.get ⟨0, h⟩) := by
  cases q with
  | nil => simp at h
  | cons a l => rfl

theorem getLast?_eq_get {α : Type} : ∀ (l : List α), l ≠ [] →
    ∀ (h : l.length - 1 < l.length), l.getLast? = some (l.get ⟨l.length - 1, h⟩) := by
  intro l
  induction l with
  | nil => intro h; exact absurd rfl h
  | cons a l2 ih =>
      intro _ h
      cases l2 with
      | nil => rfl
      | cons b l3 =>
          rw [List.getLast?_cons_cons]
          have h2 : (b :: l3).length - 1 < (b :: l3).length := by simp
          rw [ih (by simp) h2]
          rfl

/-! Congruence of the invariant components under state updates that leave
the mentioned fields untouched. -/

theorem isOwnerState_congr {n : Nat} {s s2 : GState n} {t : Fin n}
    (hts : s2.ts t = s.ts t) (hfl : s2.flag t = s.flag t)
    (h : isOwnerState s t) : isOwnerState s2 t := by
  unfold isOwnerState at h ⊢
  rw [hts, hfl]
  exact h

theorem ownerOk_congr {n : Nat} {s s2 : GState n} {t : Fin n} {rest : List (Fin n)}
    (hts : s2.ts t = s.ts t) (hfl : s2.flag t = s.flag t)
    (hnx : s2.next t = s.next t) (h : ownerOk s t rest) : ownerOk s2 t rest := by
  refine ⟨isOwnerState_congr hts hfl h.1, ?_⟩
  intro k x h2
  rw [hts] at h2
  rw [hnx]
  exact h.2 k x h2

theorem lockedLink_congr {n : Nat} {s s2 : GState n} {a b : Fin n}
    (hnx : s2.next a = s.next a) (hts : s2.ts b = s.ts b)
    (hfl : s2.flag b = s.flag b) (h : lockedLink s a b) : lockedLink s2 a b := by
  unfold lockedLink at h ⊢
  rw [hnx, hts, hfl]
  exact h

theorem pairsOk_congr {n : Nat} {s s2 : GState n} : ∀ {q : List (Fin n)},
    (∀ a ∈ q, s2.next a = s.next a) →
    (∀ b ∈ q.tail, s2.ts b = s.ts b ∧ s2.flag b = s.flag b) →
    pairsOk s q → pairsOk s2 q := by
  intro q
  induction q with
  | nil => intro _ _ _; trivial
  | cons a l ih =>
      intro hnx htf h
      cases l with
      | nil => trivial
      | cons b l2 =>
          obtain ⟨hab, hrest⟩ := h
          refine ⟨?_, ?_⟩
          · have hb := htf b (by simp)
            exact lockedLink_congr (hnx a (by simp)) hb.1 hb.2 hab
          · exact ih (fun x hx => hnx x (List.mem_cons_of_mem a hx))
              (fun x hx => htf x (List.mem_cons_of_mem b hx)) hrest

/-! pairsOk API. -/

theorem pairsOk_tail {n : Nat} {s : GState n} {a : Fin n} {l : List (Fin n)}
    (h : pairsOk s (a :: l)) : pairsOk s l := by
  cases l with
  | nil => trivial
  | cons b l2 => exact h.2

theorem pairsOk_mem_tail {n : Nat} {s : GState n} : ∀ (h : Fin n) (l : List (Fin n)),
    pairsOk s (h :: l) → ∀ t ∈ l, ∃ a, lockedLink s a t := by
  intro h l
  induction l generalizing h with
  | nil => intro _ t ht; cases ht
  | cons b l2 ih =>
      intro hp t ht
      rcases List.mem_cons.mp ht with rfl | ht2
      · exact ⟨h, hp.1⟩
      · exact ih b hp.2 t ht2

theorem pairsOk_append_singleton {n : Nat} {s : GState n} {t : Fin n} :
    ∀ {q : List (Fin n)}, pairsOk s q →
      (∀ u, q.getLast? = some u → lockedLink s u t) → pairsOk s (q ++ [t]) := by
  intro q
  induction q with
  | nil => intro _ _; trivial
  | cons a l ih =>
      intro h hlink
      cases l with
      | nil => exact ⟨hlink a rfl, trivial⟩
      | cons b l2 =>
          refine ⟨h.1, ?_⟩
          exact ih h.2 (fun u hu => hlink u (by rw [List.getLast?_cons_cons]; exact hu))

theorem pairsOk_iff_get {n : Nat} (s : GState n) :
    ∀ (q : List (Fin n)), pairsOk s q ↔
      ∀ (i : Nat) (h : i + 1 < q.length),
        lockedLink s (q.get ⟨i, Nat.lt_of_succ_lt h⟩) (q.get ⟨i + 1, h⟩) := by
  intro q
  induction q with
  | nil =>
      constructor
      · intro _ i h; simp at h
      · intro _; trivial
  | cons a l ih =>
      cases l with
      | nil =>
          constructor
          · intro _ i h; simp at h
          · intro _; trivial
      | cons b l2 =>
          constructor
          · intro h i hi
            match i with
            | 0 => exact h.1
            | Nat.succ i2 =>
                exact (ih.mp h.2) i2 (by simpa [Nat.succ_lt_succ_iff] using hi)
          · intro hidx
            refine ⟨hidx 0 (by simp), ih.mpr ?_⟩
            intro i hi
            exact hidx (i + 1) (by simpa [Nat.succ_lt_succ_iff] using hi)

/-! Ownership facts. -/

theorem isOwnerState_inQueue {n : Nat} {s : GState n} {t : Fin n}
    (h : isOwnerState s t) : inQueue (s.ts t) = true := by
  rcases h with ⟨k, h2⟩ | ⟨k, v, h2⟩ | ⟨k, h2⟩ | ⟨k, h2⟩ | ⟨k, h2⟩ | ⟨k, x, h2⟩ | ⟨⟨k, h2⟩, _⟩ <;>
    rw [h2] <;> rfl

/-- Any thread owning the lock is the head of the queue. -/
theorem owner_head {n : Nat} {s : GState n} {q : List (Fin n)} (hq : QInv s q)
    {t : Fin n} (ho : isOwnerState s t) : q.head? = some t := by
  have ht : t ∈ q := (hq.mem_iff t).mpr (isOwnerState_inQueue ho)
  cases hqq : q with
  | nil => rw [hqq] at ht; cases ht
  | cons h l =>
      rw [hqq] at ht
      rcases List.mem_cons.mp ht with rfl | htl
      · rfl
      · exfalso
        have hlinks : pairsOk s (h :: l) := by rw [← hqq]; exact hq.links
        obtain ⟨a, hl⟩ := pairsOk_mem_tail h l hlinks t htl
        rcases hl with ⟨⟨k, hpub⟩, _⟩ | ⟨_, ⟨k, hspin⟩, hflag⟩
        · rcases ho with ⟨k2, h2⟩ | ⟨k2, v2, h2⟩ | ⟨k2, h2⟩ | ⟨k2, h2⟩ | ⟨k2, h2⟩ |
            ⟨k2, x2, h2⟩ | ⟨⟨k2, h2⟩, _⟩ <;>
            rw [h2] at hpub <;> exact TState.noConfusion hpub
        · rcases ho with ⟨k2, h2⟩ | ⟨k2, v2, h2⟩ | ⟨k2, h2⟩ | ⟨k2, h2⟩ | ⟨k2, h2⟩ |
            ⟨k2, x2, h2⟩ | ⟨⟨k2, h2⟩, hf⟩ <;> rw [h2] at hspin
          · exact TState.noConfusion hspin
          · exact TState.noConfusion hspin
          · exact TState.noConfusion hspin
          · exact TState.noConfusion hspin
          · exact TState.noConfusion hspin
          · exact TState.noConfusion hspin
          · rw [hf] at hflag; exact Bool.noConfusion hflag

/-! Sum helpers. -/

theorem kOf_update {n : Nat} (ts : Fin n → TState n) (t : Fin n) (st : TState n)
    (u : Fin n) :
    kOf (Function.update ts t st u) = Function.update (fun x => kOf (ts x)) t (kOf st) u := by
  by_cases hu : u = t
  · subst hu; simp
  · simp [Function.update_noteq hu]

theorem sum_kOf_update {n : Nat} (ts : Fin n → TState n) (t : Fin n) (st : TState n)
    (h : kOf st = kOf (ts t)) :
    (∑ u : Fin n, kOf (Function.update ts t st u)) = ∑ u : Fin n, kOf (ts u) := by
  apply Finset.sum_congr rfl
  intro u _
  by_cases hu : u = t
  · subst hu; simp [h]
  · simp [Function.update_noteq hu]

theorem sum_kOf_update_succ {n : Nat} (ts : Fin n → TState n) (t : Fin n) (st : TState n)
    (h : kOf st = kOf (ts t) + 1) :
    (∑ u : Fin n, kOf (Function.update ts t st u)) = (∑ u : Fin n, kOf (ts u)) + 1 := by
  have h1 : (∑ u : Fin n, kOf (Function.update ts t st u)) =
      ∑ u : Fin n, Function.update (fun x => kOf (ts x)) t (kOf st) u :=
    Finset.sum_congr rfl (fun u _ => kOf_update ts t st u)
  rw [h1, Finset.sum_update_of_mem (Finset.mem_univ t), h,
    Finset.sum_eq_sum_diff_singleton_add (Finset.mem_univ t) (fun u => kOf (ts u))]
  omega

/-! Generic preservation lemmas. -/

/-- A step of a thread outside the queue that stays outside the queue: its
program counter and possibly its own slot next field change, nothing else. -/
theorem qinv_update_nonqueue {n : Nat} {s s2 : GState n} {q : List (Fin n)}
    (hq : QInv s q) (t : Fin n) (st : TState n) (nx : Option (Fin n))
    (h2ts : s2.ts = Function.update s.ts t st)
    (h2next : s2.next = Function.update s.next t nx)
    (h2tail : s2.tail = s.tail) (h2flag : s2.flag = s.flag)
    (h2data : s2.data = s.data)
    (hold : inQueue (s.ts t) = false) (hnew : inQueue st = false)
    (hknew : kOf st = kOf (s.ts t))
    (htsw : ∀ k2, st = TState.toSwap k2 → nx = none)
    (htc : ∀ k2, st = TState.tryCas k2 → nx = none)
    (hcs1 : ∀ k2 v2, st ≠ TState.cs1 k2 v2) :
    QInv s2 q := by
  have hnm : t ∉ q := by
    intro hm
    have h2 := (hq.mem_iff t).mp hm
    rw [hold] at h2
    exact Bool.noConfusion h2
  have htsu : ∀ u : Fin n, u ≠ t → s2.ts u = s.ts u := by
    intro u hu; rw [h2ts]; exact Function.update_noteq hu _ _
  have hnxu : ∀ u : Fin n, u ≠ t → s2.next u = s.next u := by
    intro u hu; rw [h2next]; exact Function.update_noteq hu _ _
  have hflu : ∀ u : Fin n, s2.flag u = s.flag u := fun u => by rw [h2flag]
  refine ⟨hq.nodup, by rw [h2tail]; exact hq.tail_eq, ?_, ?_, ?_, ?_, ?_, ?_, ?_, ?_⟩
  · intro u
    by_cases hu : u = t
    · subst hu
      constructor
      · intro hm; exact absurd hm hnm
      · intro h2
        rw [h2ts, Function.update_same, hnew] at h2
        exact Bool.noConfusion h2
    · rw [htsu u hu]
      exact hq.mem_iff u
  · intro u hu
    have hut : u ≠ t := by
      intro h2; subst h2; exact hnm (mem_of_head?_eq hu)
    exact ownerOk_congr (htsu u hut) (hflu u) (hnxu u hut) (hq.head_owner u hu)
  · intro u hu
    have hut : u ≠ t := by
      intro h2; subst h2; exact hnm (mem_of_getLast?_eq hu)
    rw [hnxu u hut]
    exact hq.last_next u hu
  · refine pairsOk_congr ?_ ?_ hq.links
    · intro a ha
      have hat : a ≠ t := by intro h2; subst h2; exact hnm ha
      exact hnxu a hat
    · intro b hb
      have hbt : b ≠ t := by intro h2; subst h2; exact hnm (mem_of_mem_tail hb)
      exact ⟨htsu b hbt, hflu b⟩
  · intro u k2 h2
    by_cases hu : u = t
    · subst hu
      rw [h2ts, Function.update_same] at h2
      rw [h2next, Function.update_same]
      exact htsw k2 h2
    · rw [htsu u hu] at h2
      rw [hnxu u hu]
      exact hq.toSwap_next u k2 h2
  · intro u k2 h2
    by_cases hu : u = t
    · subst hu
      rw [h2ts, Function.update_same] at h2
      rw [h2next, Function.update_same]
      exact htc k2 h2
    · rw [htsu u hu] at h2
      rw [hnxu u hu]
      exact hq.tryCas_next u k2 h2
  · rw [h2data, h2ts, sum_kOf_update s.ts t st hknew]
    exact hq.data_sum
  · intro u k2 v2 h2
    by_cases hu : u = t
    · subst hu
      rw [h2ts, Function.update_same] at h2
      exact absurd h2 (hcs1 k2 v2)
    · rw [htsu u hu] at h2
      rw [h2data]
      exact hq.cs1_val u k2 v2 h2

/-- A step of the queue head that changes only its own program counter,
staying in the queue. -/
theorem qinv_update_head {n : Nat} {s s2 : GState n} {q : List (Fin n)}
    (hq : QInv s q) (t : Fin n) (st : TState n)
    (hhead : q.head? = some t)
    (h2ts : s2.ts = Function.update s.ts t st)
    (h2tail : s2.tail = s.tail) (h2next : s2.next = s.next)
    (h2flag : s2.flag = s.flag) (h2data : s2.data = s.data)
    (hnew : inQueue st = true)
    (hk : kOf st = kOf (s.ts t))
    (howner : isOwnerState s2 t)
    (hhand : ∀ (k : Nat) (x : Fin n), st = TState.handoff k x →
      q.tail.head? = some x ∧ s.next t = some x)
    (hcs1 : ∀ (k : Nat) (v : Nat), st = TState.cs1 k v → v = s.data) :
    QInv s2 q := by
  have htm : t ∈ q := mem_of_head?_eq hhead
  have htsu : ∀ u : Fin n, u ≠ t → s2.ts u = s.ts u := by
    intro u hu; rw [h2ts]; exact Function.update_noteq hu _ _
  have htail_ne : ∀ b ∈ q.tail, b ≠ t := by
    intro b hb h2
    subst h2
    cases hqq : q with
    | nil => rw [hqq] at hhead; cases hhead
    | cons a l =>
        rw [hqq] at hhead
        simp at hhead
        rw [hqq] at hb
        simp at hb
        have hnd := hq.nodup
        rw [hqq, hhead] at hnd
        exact (List.nodup_cons.mp hnd).1 hb
  refine ⟨hq.nodup, by rw [h2tail]; exact hq.tail_eq, ?_, ?_, ?_, ?_, ?_, ?_, ?_, ?_⟩
  · intro u
    by_cases hu : u = t
    · subst hu
      rw [h2ts, Function.update_same, hnew]
      simp [htm]
    · rw [htsu u hu]
      exact hq.mem_iff u
  · intro u hu
    have hut : u = t := by
      rw [hhead] at hu
      exact (Option.some.inj hu).symm
    subst hut
    refine ⟨howner, ?_⟩
    intro k x h2
    rw [h2ts, Function.update_same] at h2
    rw [h2next]
    exact hhand k x h2
  · intro u hu
    rw [h2next]
    exact hq.last_next u hu
  · refine pairsOk_congr (fun a _ => by rw [h2next]) ?_ hq.links
    intro b hb
    exact ⟨htsu b (htail_ne b hb), by rw [h2flag]⟩
  · intro u k2 h2
    by_cases hu : u = t
    · subst hu
      rw [h2ts, Function.update_same] at h2
      rw [h2] at hnew
      exact Bool.noConfusion hnew
    · rw [htsu u hu] at h2
      rw [h2next]
      exact hq.toSwap_next u k2 h2
  · intro u k2 h2
    by_cases hu : u = t
    · subst hu
      rw [h2ts, Function.update_same] at h2
      rw [h2] at hnew
      exact Bool.noConfusion hnew
    · rw [htsu u hu] at h2
      rw [h2next]
      exact hq.tryCas_next u k2 h2
  · rw [h2data, h2ts, sum_kOf_update s.ts t st hk]
    exact hq.data_sum
  · intro u k2 v2 h2
    by_cases hu : u = t
    · subst hu
      rw [h2ts, Function.update_same] at h2
      rw [h2data]
      exact hcs1 k2 v2 h2
    · rw [htsu u hu] at h2
      rw [h2data]
      exact hq.cs1_val u k2 v2 h2

/-- The queue head is never in the pre-publish state. -/
theorem head_not_toPublish {n : Nat} {s : GState n} {q : List (Fin n)}
    (hq : QInv s q) {t : Fin n} {k : Nat} {p : Fin n}
    (hts : s.ts t = TState.toPublish k p) (hh : q.head? = some t) : False := by
  have hown := (hq.head_owner t hh).1
  rcases hown with ⟨k2, h2⟩ | ⟨k2, v2, h2⟩ | ⟨k2, h2⟩ | ⟨k2, h2⟩ | ⟨k2, h2⟩ |
    ⟨k2, x2, h2⟩ | ⟨⟨k2, h2⟩, _⟩ <;>
    rw [hts] at h2 <;> exact TState.noConfusion h2

/-- If the head slot next field holds `x`, then `x` is the second queue
element. -/
theorem next_head_of_next_some {n : Nat} {s : GState n} {q : List (Fin n)}
    (hq : QInv s q) {t x : Fin n} (hhead : q.head? = some t)
    (hnx : s.next t = some x) : q.tail.head? = some x := by
  cases q with
  | nil => cases hhead
  | cons a rest =>
      simp at hhead
      cases rest with
      | nil =>
          exfalso
          have h2 : s.next a = none := hq.last_next a rfl
          rw [hhead] at h2
          rw [h2] at hnx
          exact Option.noConfusion hnx
      | cons b rest2 =>
          have hlink : lockedLink s a b := hq.links.1
          rw [hhead] at hlink
          rcases hlink with ⟨_, hnone⟩ | ⟨hsome, _, _⟩
          · rw [hnone] at hnx
            exact Option.noConfusion hnx
          · rw [hsome] at hnx
            simp at hnx ⊢
            exact hnx

/-- A thread enters the empty queue (the successful swap or compare-exchange
with a null tail). -/
theorem qinv_enter_empty {n : Nat} {s s2 : GState n} {q : List (Fin n)}
    (hq : QInv s q) (t : Fin n) (k : Nat)
    (htail : s.tail = none)
    (hnx : s.next t = none)
    (hold : inQueue (s.ts t) = false)
    (hkold : kOf (s.ts t) = k)
    (h2ts : s2.ts = Function.update s.ts t (TState.cs0 k))
    (h2tail : s2.tail = some t) (h2next : s2.next = s.next)
    (h2flag : s2.flag = s.flag) (h2data : s2.data = s.data) :
    QInv s2 [t] := by
  have hqnil : q = [] := by
    apply eq_nil_of_getLast?_eq_none
    rw [← hq.tail_eq]
    exact htail
  refine ⟨List.nodup_singleton t, by rw [h2tail]; rfl, ?_, ?_, ?_, trivial, ?_, ?_, ?_, ?_⟩
  · intro u
    by_cases hu : u = t
    · subst hu
      rw [h2ts, Function.update_same]
      simp [inQueue]
    · constructor
      · intro hm
        simp at hm
        exact absurd hm hu
      · intro h4
        rw [h2ts, Function.update_noteq hu _ _] at h4
        have h5 := (hq.mem_iff u).mpr h4
        rw [hqnil] at h5
        cases h5
  · intro u hu
    simp at hu
    subst hu
    refine ⟨Or.inl ⟨k, by rw [h2ts, Function.update_same]⟩, ?_⟩
    intro k2 x h2
    rw [h2ts, Function.update_same] at h2
    exact TState.noConfusion h2
  · intro u hu
    simp at hu
    subst hu
    rw [h2next]
    exact hnx
  · intro u k2 h2
    by_cases hu : u = t
    · subst hu
      rw [h2ts, Function.update_same] at h2
      exact TState.noConfusion h2
    · rw [h2ts, Function.update_noteq hu _ _] at h2
      rw [h2next]
      exact hq.toSwap_next u k2 h2
  · intro u k2 h2
    by_cases hu : u = t
    · subst hu
      rw [h2ts, Function.update_same] at h2
      exact TState.noConfusion h2
    · rw [h2ts, Function.update_noteq hu _ _] at h2
      rw [h2next]
      exact hq.tryCas_next u k2 h2
  · rw [h2data, h2ts, sum_kOf_update s.ts t (TState.cs0 k) (by rw [hkold]; rfl)]
    exact hq.data_sum
  · intro u k2 v2 h2
    by_cases hu : u = t
    · subst hu
      rw [h2ts, Function.update_same] at h2
      exact TState.noConfusion h2
    · rw [h2ts, Function.update_noteq hu _ _] at h2
      rw [h2data]
      exact hq.cs1_val u k2 v2 h2

/-- The successful release compare-exchange: the sole queue element leaves
and the tail returns to null. -/
theorem qinv_relCasOk {n : Nat} {s s2 : GState n} {q : List (Fin n)}
    (hq : QInv s q) (t : Fin n) (k : Nat)
    (hts : s.ts t = TState.relCas k)
    (htail : s.tail = some t)
    (h2ts : s2.ts = Function.update s.ts t (TState.ready k))
    (h2tail : s2.tail = none) (h2next : s2.next = s.next)
    (h2flag : s2.flag = s.flag) (h2data : s2.data = s.data) :
    QInv s2 [] := by
  have hhead : q.head? = some t :=
    owner_head hq (Or.inr (Or.inr (Or.inr (Or.inl ⟨k, hts⟩))))
  have hlast : q.getLast? = some t := by rw [← hq.tail_eq]; exact htail
  have hq1 : q = [t] := eq_singleton_of_head_last hq.nodup hhead hlast
  refine ⟨List.nodup_nil, by rw [h2tail]; rfl, ?_, ?_, ?_, trivial, ?_, ?_, ?_, ?_⟩
  · intro u
    constructor
    · intro hm
      cases hm
    · intro h4
      by_cases hu : u = t
      · subst hu
        rw [h2ts, Function.update_same] at h4
        simp [inQueue] at h4
      · rw [h2ts, Function.update_noteq hu _ _] at h4
        have h5 := (hq.mem_iff u).mpr h4
        rw [hq1] at h5
        simp at h5
        exact absurd h5 hu
  · intro u hu
    cases hu
  · intro u hu
    cases hu
  · intro u k2 h2
    by_cases hu : u = t
    · subst hu
      rw [h2ts, Function.update_same] at h2
      exact TState.noConfusion h2
    · rw [h2ts, Function.update_noteq hu _ _] at h2
      rw [h2next]
      exact hq.toSwap_next u k2 h2
  · intro u k2 h2
    by_cases hu : u = t
    · subst hu
      rw [h2ts, Function.update_same] at h2
      exact TState.noConfusion h2
    · rw [h2ts, Function.update_noteq hu _ _] at h2
      rw [h2next]
      exact hq.tryCas_next u k2 h2
  · rw [h2data, h2ts, sum_kOf_update s.ts t (TState.ready k) (by rw [hts]; rfl)]
    exact hq.data_sum
  · intro u k2 v2 h2
    by_cases hu : u = t
    · subst hu
      rw [h2ts, Function.update_same] at h2
      exact TState.noConfusion h2
    · rw [h2ts, Function.update_noteq hu _ _] at h2
      rw [h2data]
      exact hq.cs1_val u k2 v2 h2

/-- The guard write of the counter: the head moves to the release phase and
the counter grows by one. -/
theorem qinv_csWrite {n : Nat} {s s2 : GState n} {q : List (Fin n)}
    (hq : QInv s q) (t : Fin n) (k v : Nat)
    (hts : s.ts t = TState.cs1 k v)
    (h2ts : s2.ts = Function.update s.ts t (TState.rel0 (k + 1)))
    (h2tail : s2.tail = s.tail) (h2next : s2.next = s.next)
    (h2flag : s2.flag = s.flag) (h2data : s2.data = v + 1) :
    QInv s2 q := by
  have hown : isOwnerState s t := Or.inr (Or.inl ⟨k, v, hts⟩)
  have hhead : q.head? = some t := owner_head hq hown
  have hval : v = s.data := hq.cs1_val t k v hts
  have htm : t ∈ q := mem_of_head?_eq hhead
  have htsu : ∀ u : Fin n, u ≠ t → s2.ts u = s.ts u := by
    intro u hu; rw [h2ts]; exact Function.update_noteq hu _ _
  have htail_ne : ∀ b ∈ q.tail, b ≠ t := by
    intro b hb h2
    subst h2
    cases hqq : q with
    | nil => rw [hqq] at hhead; cases hhead
    | cons a l =>
        rw [hqq] at hhead
        simp at hhead
        rw [hqq] at hb
        simp at hb
        have hnd := hq.nodup
        rw [hqq, hhead] at hnd
        exact (List.nodup_cons.mp hnd).1 hb
  refine ⟨hq.nodup, by rw [h2tail]; exact hq.tail_eq, ?_, ?_, ?_, ?_, ?_, ?_, ?_, ?_⟩
  · intro u
    by_cases hu : u = t
    · subst hu
      rw [h2ts, Function.update_same]
      simp [inQueue, htm]
    · rw [htsu u hu]
      exact hq.mem_iff u
  · intro u hu
    have hut : u = t := by
      rw [hhead] at hu
      exact (Option.some.inj hu).symm
    subst hut
    refine ⟨Or.inr (Or.inr (Or.inl ⟨k + 1, by rw [h2ts, Function.update_same]⟩)), ?_⟩
    intro k2 x h2
    rw [h2ts, Function.update_same] at h2
    exact TState.noConfusion h2
  · intro u hu
    rw [h2next]
    exact hq.last_next u hu
  · refine pairsOk_congr (fun a _ => by rw [h2next]) ?_ hq.links
    intro b hb
    exact ⟨htsu b (htail_ne b hb), by rw [h2flag]⟩
  · intro u k2 h2
    by_cases hu : u = t
    · subst hu
      rw [h2ts, Function.update_same] at h2
      exact TState.noConfusion h2
    · rw [htsu u hu] at h2
      rw [h2next]
      exact hq.toSwap_next u k2 h2
  · intro u k2 h2
    by_cases hu : u = t
    · subst hu
      rw [h2ts, Function.update_same] at h2
      exact TState.noConfusion h2
    · rw [htsu u hu] at h2
      rw [h2next]
      exact hq.tryCas_next u k2 h2
  · rw [h2data, h2ts,
      sum_kOf_update_succ s.ts t (TState.rel0 (k + 1)) (by rw [hts]; rfl)]
    rw [hval, hq.data_sum]
  · intro u k2 v2 h2
    by_cases hu : u = t
    · subst hu
      rw [h2ts, Function.update_same] at h2
      exact TState.noConfusion h2
    · exfalso
      rw [htsu u hu] at h2
      have hown2 : isOwnerState s u := Or.inr (Or.inl ⟨k2, v2, h2⟩)
      have hh2 := owner_head hq hown2
      rw [hhead] at hh2
      exact hu (Option.some.inj hh2).symm

/-- The tail swap with a predecessor: the thread appends itself to the
queue, not yet published. -/
theorem qinv_swapSome {n : Nat} {s s2 : GState n} {q : List (Fin n)}
    (hq : QInv s q) (t p : Fin n) (k : Nat)
    (hts : s.ts t = TState.toSwap k)
    (htail : s.tail = some p)
    (h2ts : s2.ts = Function.update s.ts t (TState.toPublish k p))
    (h2tail : s2.tail = some t) (h2next : s2.next = s.next)
    (h2flag : s2.flag = s.flag) (h2data : s2.data = s.data) :
    QInv s2 (q ++ [t]) := by
  have hlast : q.getLast? = some p := by rw [← hq.tail_eq]; exact htail
  have hnm : t ∉ q := by
    intro hm
    have h2 := (hq.mem_iff t).mp hm
    rw [hts] at h2
    simp [inQueue] at h2
  have hnx : s.next t = none := hq.toSwap_next t k hts
  have htsu : ∀ u : Fin n, u ≠ t → s2.ts u = s.ts u := by
    intro u hu; rw [h2ts]; exact Function.update_noteq hu _ _
  refine ⟨nodup_concat_of hq.nodup hnm, by rw [h2tail, List.getLast?_concat], ?_, ?_, ?_,
    ?_, ?_, ?_, ?_, ?_⟩
  · intro u
    by_cases hu : u = t
    · subst hu
      rw [h2ts, Function.update_same]
      simp [inQueue]
    · rw [htsu u hu]
      constructor
      · intro hm
        rcases List.mem_append.mp hm with h3 | h3
        · exact (hq.mem_iff u).mp h3
        · simp at h3
          exact absurd h3 hu
      · intro h4
        exact List.mem_append.mpr (Or.inl ((hq.mem_iff u).mpr h4))
  · intro u hu
    cases hqq : q with
    | nil =>
        exfalso
        rw [hqq] at hlast
        cases hlast
    | cons a r =>
        rw [hqq] at hu
        simp at hu
        have hat : a ≠ t := by
          intro h3
          apply hnm
          rw [hqq, h3]
          exact List.mem_cons_self t r
        have hold := hq.head_owner a (by rw [hqq]; rfl)
        rw [← hu]
        refine ⟨isOwnerState_congr (htsu a hat) (by rw [h2flag]) hold.1, ?_⟩
        intro k2 x h2
        rw [htsu a hat] at h2
        obtain ⟨hrh, hna⟩ := hold.2 k2 x h2
        rw [hqq] at hrh
        constructor
        · cases r with
          | nil => simp at hrh
          | cons b r2 => exact hrh
        · rw [h2next]
          exact hna
  · intro u hu
    rw [List.getLast?_concat] at hu
    have hut : u = t := (Option.some.inj hu).symm
    subst hut
    rw [h2next]
    exact hnx
  · refine pairsOk_append_singleton ?_ ?_
    · refine pairsOk_congr (fun a _ => by rw [h2next]) ?_ hq.links
      intro b hb
      have hbt : b ≠ t := by
        intro h3
        subst h3
        exact hnm (mem_of_mem_tail hb)
      exact ⟨htsu b hbt, by rw [h2flag]⟩
    · intro u hu
      have hup : u = p := by
        rw [hlast] at hu
        exact (Option.some.inj hu).symm
      subst hup
      left
      constructor
      · exact ⟨k, by rw [h2ts, Function.update_same]⟩
      · rw [h2next]
        exact hq.last_next u hlast
  · intro u k2 h2
    by_cases hu : u = t
    · subst hu
      rw [h2ts, Function.update_same] at h2
      exact TState.noConfusion h2
    · rw [htsu u hu] at h2
      rw [h2next]
      exact hq.toSwap_next u k2 h2
  · intro u k2 h2
    by_cases hu : u = t
    · subst hu
      rw [h2ts, Function.update_same] at h2
      exact TState.noConfusion h2
    · rw [htsu u hu] at h2
      rw [h2next]
      exact hq.tryCas_next u k2 h2
  · rw [h2data, h2ts, sum_kOf_update s.ts t (TState.toPublish k p) (by rw [hts]; rfl)]
    exact hq.data_sum
  · intro u k2 v2 h2
    by_cases hu : u = t
    · subst hu
      rw [h2ts, Function.update_same] at h2
      exact TState.noConfusion h2
    · rw [htsu u hu] at h2
      rw [h2data]
      exact hq.cs1_val u k2 v2 h2

/-- The hand-off store: the head leaves the queue and its successor, whose
flag is now false, becomes the new head. -/
theorem qinv_handoff {n : Nat} {s s2 : GState n} {q : List (Fin n)}
    (hq : QInv s q) (t x : Fin n) (k : Nat)
    (hts : s.ts t = TState.handoff k x)
    (h2ts : s2.ts = Function.update s.ts t (TState.ready k))
    (h2flag : s2.flag = Function.update s.flag x false)
    (h2tail : s2.tail = s.tail) (h2next : s2.next = s.next)
    (h2data : s2.data = s.data) :
    ∃ q2, QInv s2 q2 := by
  have hhead : q.head? = some t :=
    owner_head hq (Or.inr (Or.inr (Or.inr (Or.inr (Or.inr (Or.inl ⟨k, x, hts⟩))))))
  obtain ⟨hresth, hnxt⟩ := (hq.head_owner t hhead).2 k x hts
  obtain ⟨rest, hqr⟩ : ∃ rest, q = t :: rest := by
    cases hqz : q with
    | nil => rw [hqz] at hhead; cases hhead
    | cons a r =>
        rw [hqz] at hhead
        simp at hhead
        exact ⟨r, by rw [hhead]⟩
  rw [hqr] at hresth
  obtain ⟨rest2, hrr⟩ : ∃ rest2, rest = x :: rest2 := by
    cases rest with
    | nil => simp at hresth
    | cons b r2 =>
        simp at hresth
        exact ⟨r2, by rw [hresth]⟩
  have hqq : q = t :: x :: rest2 := by rw [hqr, hrr]
  -- q = t :: x :: rest2
  have hnd : (t :: x :: rest2).Nodup := by rw [← hqq]; exact hq.nodup
  have htx : t ∉ x :: rest2 := (List.nodup_cons.mp hnd).1
  have hxr : x ∉ rest2 := (List.nodup_cons.mp (List.nodup_cons.mp hnd).2).1
  have hlinks : pairsOk s (t :: x :: rest2) := by rw [← hqq]; exact hq.links
  have hsx : (∃ k2, s.ts x = TState.spinning k2) := by
    rcases hlinks.1 with ⟨_, hnone⟩ | ⟨_, hsp, _⟩
    · rw [hnone] at hnxt
      exact Option.noConfusion hnxt
    · exact hsp
  refine ⟨x :: rest2, ?_, ?_, ?_, ?_, ?_, ?_, ?_, ?_, ?_, ?_⟩
  · exact (List.nodup_cons.mp hnd).2
  · rw [h2tail, hq.tail_eq, hqq, List.getLast?_cons_cons]
  · intro u
    by_cases hu : u = t
    · subst hu
      rw [h2ts, Function.update_same]
      constructor
      · intro hm
        exact absurd hm htx
      · intro h4
        simp [inQueue] at h4
    · rw [h2ts, Function.update_noteq hu _ _]
      have h5 := hq.mem_iff u
      rw [hqq] at h5
      constructor
      · intro hm
        exact h5.mp (List.mem_cons_of_mem t hm)
      · intro h4
        have h6 := h5.mpr h4
        rcases List.mem_cons.mp h6 with h7 | h7
        · exact absurd h7 hu
        · exact h7
  · intro u hu
    simp at hu
    subst hu
    have hxt : x ≠ t := by
      intro h3
      apply htx
      rw [← h3]
      exact List.mem_cons_self x rest2
    obtain ⟨k2, hsx2⟩ := hsx
    refine ⟨Or.inr (Or.inr (Or.inr (Or.inr (Or.inr (Or.inr
      ⟨⟨k2, by rw [h2ts, Function.update_noteq hxt _ _]; exact hsx2⟩,
       by rw [h2flag, Function.update_same]⟩))))), ?_⟩
    intro k3 x3 h3
    rw [h2ts, Function.update_noteq hxt _ _, hsx2] at h3
    exact TState.noConfusion h3
  · intro u hu
    have h5 : q.getLast? = some u := by
      rw [hqq, List.getLast?_cons_cons]
      exact hu
    rw [h2next]
    exact hq.last_next u h5
  · refine pairsOk_congr (fun a _ => by rw [h2next]) ?_ hlinks.2
    intro b hb
    have hbt : b ≠ t := by
      intro h3
      subst h3
      exact htx (List.mem_cons_of_mem x hb)
    have hbx : b ≠ x := by
      intro h3
      subst h3
      exact hxr hb
    constructor
    · rw [h2ts]
      exact Function.update_noteq hbt _ _
    · rw [h2flag]
      exact Function.update_noteq hbx _ _
  · intro u k2 h2
    by_cases hu : u = t
    · subst hu
      rw [h2ts, Function.update_same] at h2
      exact TState.noConfusion h2
    · rw [h2ts, Function.update_noteq hu _ _] at h2
      rw [h2next]
      exact hq.toSwap_next u k2 h2
  · intro u k2 h2
    by_cases hu : u = t
    · subst hu
      rw [h2ts, Function.update_same] at h2
      exact TState.noConfusion h2
    · rw [h2ts, Function.update_noteq hu _ _] at h2
      rw [h2next]
      exact hq.tryCas_next u k2 h2
  · rw [h2data, h2ts, sum_kOf_update s.ts t (TState.ready k) (by rw [hts]; rfl)]
    exact hq.data_sum
  · intro u k2 v2 h2
    by_cases hu : u = t
    · subst hu
      rw [h2ts, Function.update_same] at h2
      exact TState.noConfusion h2
    · rw [h2ts, Function.update_noteq hu _ _] at h2
      rw [h2data]
      exact hq.cs1_val u k2 v2 h2

/-- The publish store: the waiting thread initialises its private flag to
true and writes its reference into the predecessor slot next field; its
queue link switches from the pre-publish to the published form. -/
theorem qinv_publish {n : Nat} {s s2 : GState n} {q : List (Fin n)}
    (hq : QInv s q) (t p : Fin n) (k : Nat)
    (hts : s.ts t = TState.toPublish k p)
    (h2ts : s2.ts = Function.update s.ts t (TState.spinning k))
    (h2next : s2.next = Function.update s.next p (some t))
    (h2flag : s2.flag = Function.update s.flag t true)
    (h2tail : s2.tail = s.tail) (h2data : s2.data = s.data) :
    QInv s2 q := by
  have htm : t ∈ q := (hq.mem_iff t).mpr (by rw [hts]; rfl)
  obtain ⟨⟨jv, hjlt⟩, hget0⟩ := List.mem_iff_get.mp htm
  have hqne : q ≠ [] := by
    intro h0
    rw [h0] at htm
    cases htm
  have hj0 : jv ≠ 0 := by
    intro h0
    subst h0
    apply head_not_toPublish hq hts
    rw [head?_eq_get_zero q (by omega)]
    exact congrArg some hget0
  obtain ⟨j, rfl⟩ : ∃ j, jv = j + 1 := ⟨jv - 1, by omega⟩
  have hgett : ∀ (h : j + 1 < q.length), q.get ⟨j + 1, h⟩ = t := fun _ => hget0
  have hinj : ∀ (i1 i2 : Nat) (h1 : i1 < q.length) (h2 : i2 < q.length),
      q.get ⟨i1, h1⟩ = q.get ⟨i2, h2⟩ → i1 = i2 := by
    intro i1 i2 h1 h2 hgg
    have h3 := hq.nodup.get_inj_iff.mp hgg
    exact congrArg Fin.val h3
  have hlink := (pairsOk_iff_get s q).mp hq.links j hjlt
  rw [hget0] at hlink
  have hstep2 : p = q.get ⟨j, Nat.lt_of_succ_lt hjlt⟩ ∧
      s.next (q.get ⟨j, Nat.lt_of_succ_lt hjlt⟩) = none := by
    rcases hlink with ⟨⟨k2, hpub⟩, hnone⟩ | ⟨_, ⟨k2, hspin⟩, _⟩
    · rw [hts] at hpub
      injection hpub with h1 h2
      exact ⟨h2, hnone⟩
    · rw [hts] at hspin
      exact TState.noConfusion hspin
  obtain ⟨hpj, hpnone0⟩ := hstep2
  have hpnone : s.next p = none := by rw [hpj]; exact hpnone0
  have hgetp : ∀ (h : j < q.length), q.get ⟨j, h⟩ = p := fun _ => hpj.symm
  have hpm : p ∈ q := by
    rw [hpj]
    exact q.get_mem _ _
  refine ⟨hq.nodup, by rw [h2tail]; exact hq.tail_eq, ?_, ?_, ?_, ?_, ?_, ?_, ?_, ?_⟩
  · intro u
    by_cases hu : u = t
    · subst hu
      rw [h2ts, Function.update_same]
      simp [inQueue, htm]
    · rw [h2ts, Function.update_noteq hu _ _]
      exact hq.mem_iff u
  · intro u hu
    have hut : u ≠ t := by
      intro h0
      subst h0
      exact head_not_toPublish hq hts hu
    have hold := hq.head_owner u hu
    refine ⟨isOwnerState_congr (by rw [h2ts]; exact Function.update_noteq hut _ _)
      (by rw [h2flag]; exact Function.update_noteq hut _ _) hold.1, ?_⟩
    intro k2 x h2
    rw [h2ts, Function.update_noteq hut _ _] at h2
    obtain ⟨hxh, hxn⟩ := hold.2 k2 x h2
    refine ⟨hxh, ?_⟩
    by_cases hup : u = p
    · exfalso
      rw [hup, hpnone] at hxn
      exact Option.noConfusion hxn
    · rw [h2next, Function.update_noteq hup _ _]
      exact hxn
  · intro u hu
    have hun : s.next u = none := hq.last_next u hu
    by_cases hup : u = p
    · exfalso
      subst hup
      have hlq := getLast?_eq_get q hqne (by omega)
      rw [hu] at hlq
      have h8 := Option.some.inj hlq
      have h9 : j = q.length - 1 := by
        apply hinj j (q.length - 1) (Nat.lt_of_succ_lt hjlt) (by omega)
        rw [hgetp (Nat.lt_of_succ_lt hjlt)]
        exact h8
      omega
    · rw [h2next, Function.update_noteq hup _ _]
      exact hun
  · rw [pairsOk_iff_get]
    intro i hi
    by_cases hij : i = j
    · subst hij
      rw [hgett hi, hgetp (Nat.lt_of_succ_lt hi)]
      right
      refine ⟨?_, ⟨k, ?_⟩, ?_⟩
      · rw [h2next]
        exact Function.update_same p (some t) s.next
      · rw [h2ts]
        exact Function.update_same t (TState.spinning k) s.ts
      · rw [h2flag]
        exact Function.update_same t true s.flag
    · have hold := (pairsOk_iff_get s q).mp hq.links i hi
      have hne1 : q.get ⟨i, Nat.lt_of_succ_lt hi⟩ ≠ p := by
        intro h0
        apply hij
        exact hinj i j (Nat.lt_of_succ_lt hi) (Nat.lt_of_succ_lt hjlt)
          (by rw [h0, hpj])
      have hne2 : q.get ⟨i + 1, hi⟩ ≠ t := by
        intro h0
        apply hij
        have h5 := hinj (i + 1) (j + 1) hi hjlt (by rw [h0, ← hget0])
        omega
      refine lockedLink_congr ?_ ?_ ?_ hold
      · rw [h2next]
        exact Function.update_noteq hne1 _ _
      · rw [h2ts]
        exact Function.update_noteq hne2 _ _
      · rw [h2flag]
        exact Function.update_noteq hne2 _ _
  · intro u k2 h2
    by_cases hu : u = t
    · subst hu
      rw [h2ts, Function.update_same] at h2
      exact TState.noConfusion h2
    · rw [h2ts, Function.update_noteq hu _ _] at h2
      have hup : u ≠ p := by
        intro h0
        subst h0
        have h5 := (hq.mem_iff u).mp hpm
        rw [h2] at h5
        exact Bool.noConfusion h5
      rw [h2next, Function.update_noteq hup _ _]
      exact hq.toSwap_next u k2 h2
  · intro u k2 h2
    by_cases hu : u = t
    · subst hu
      rw [h2ts, Function.update_same] at h2
      exact TState.noConfusion h2
    · rw [h2ts, Function.update_noteq hu _ _] at h2
      have hup : u ≠ p := by
        intro h0
        subst h0
        have h5 := (hq.mem_iff u).mp hpm
        rw [h2] at h5
        exact Bool.noConfusion h5
      rw [h2next, Function.update_noteq hup _ _]
      exact hq.tryCas_next u k2 h2
  · rw [h2data, h2ts, sum_kOf_update s.ts t (TState.spinning k) (by rw [hts]; rfl)]
    exact hq.data_sum
  · intro u k2 v2 h2
    by_cases hu : u = t
    · subst hu
      rw [h2ts, Function.update_same] at h2
      exact TState.noConfusion h2
    · rw [h2ts, Function.update_noteq hu _ _] at h2
      rw [h2data]
      exact hq.cs1_val u k2 v2 h2

/-- The initial state satisfies the invariant with the empty queue. -/
theorem qinv_init (n : Nat) : QInv (initState n) ([] : List (Fin n)) := by
  refine ⟨List.nodup_nil, rfl, ?_, ?_, ?_, trivial, ?_, ?_, ?_, ?_⟩
  · intro t
    simp [initState, inQueue]
  · intro t h
    cases h
  · intro t h
    cases h
  · intro t k h
    exact TState.noConfusion h
  · intro t k h
    exact TState.noConfusion h
  · simp [initState, kOf]
  · intro t k v h
    exact TState.noConfusion h

/-- Every step preserves the invariant. -/
theorem step_preserves_qinv {n : Nat} {iters : Nat} {t : Fin n} {s s2 : GState n}
    (hstep : Step iters t s s2) {q : List (Fin n)} (hq : QInv s q) :
    ∃ q2, QInv s2 q2 := by
  cases hstep with
  | lockReset k hts hk =>
      exact ⟨q, qinv_update_nonqueue hq t (TState.toSwap k) none rfl rfl rfl rfl rfl
        (by rw [hts]; rfl) rfl (by rw [hts]; rfl) (fun _ _ => rfl) (fun _ _ => rfl)
        (fun k2 v2 h => TState.noConfusion h)⟩
  | tryReset k hts hk =>
      exact ⟨q, qinv_update_nonqueue hq t (TState.tryCas k) none rfl rfl rfl rfl rfl
        (by rw [hts]; rfl) rfl (by rw [hts]; rfl) (fun _ _ => rfl) (fun _ _ => rfl)
        (fun k2 v2 h => TState.noConfusion h)⟩
  | trySucc k hts htail =>
      exact ⟨[t], qinv_enter_empty hq t k htail (hq.tryCas_next t k hts)
        (by rw [hts]; rfl) (by rw [hts]; rfl) rfl rfl rfl rfl rfl⟩
  | tryFail k hts htail =>
      exact ⟨q, qinv_update_nonqueue hq t (TState.ready k) (s.next t) rfl
        (Function.update_eq_self t s.next).symm rfl rfl rfl
        (by rw [hts]; rfl) rfl (by rw [hts]; rfl)
        (fun k2 h => TState.noConfusion h) (fun k2 h => TState.noConfusion h)
        (fun k2 v2 h => TState.noConfusion h)⟩
  | swapNone k hts htail =>
      exact ⟨[t], qinv_enter_empty hq t k htail (hq.toSwap_next t k hts)
        (by rw [hts]; rfl) (by rw [hts]; rfl) rfl rfl rfl rfl rfl⟩
  | swapSome k p hts htail =>
      exact ⟨q ++ [t], qinv_swapSome hq t p k hts htail rfl rfl rfl rfl rfl⟩
  | publish k p hts =>
      exact ⟨q, qinv_publish hq t p k hts rfl rfl rfl rfl rfl⟩
  | spinTrue k hts hfl =>
      exact ⟨q, hq⟩
  | spinFalse k hts hfl =>
      refine ⟨q, qinv_update_head hq t (TState.cs0 k)
        (owner_head hq (Or.inr (Or.inr (Or.inr (Or.inr (Or.inr (Or.inr
          ⟨⟨k, hts⟩, hfl⟩)))))))
        rfl rfl rfl rfl rfl rfl (by rw [hts]; rfl)
        (Or.inl ⟨k, Function.update_same t (TState.cs0 k) s.ts⟩)
        (fun k2 x h => TState.noConfusion h)
        (fun k2 v h => TState.noConfusion h)⟩
  | csRead k hts =>
      refine ⟨q, qinv_update_head hq t (TState.cs1 k s.data)
        (owner_head hq (Or.inl ⟨k, hts⟩))
        rfl rfl rfl rfl rfl rfl (by rw [hts]; rfl)
        (Or.inr (Or.inl ⟨k, s.data, Function.update_same t (TState.cs1 k s.data) s.ts⟩))
        (fun k2 x h => TState.noConfusion h)
        (fun k2 v h => by injection h with h1 h2; exact h2.symm)⟩
  | csWrite k v hts =>
      exact ⟨q, qinv_csWrite hq t k v hts rfl rfl rfl rfl rfl⟩
  | relLoadNone k hts hnx =>
      refine ⟨q, qinv_update_head hq t (TState.relCas k)
        (owner_head hq (Or.inr (Or.inr (Or.inl ⟨k, hts⟩))))
        rfl rfl rfl rfl rfl rfl (by rw [hts]; rfl)
        (Or.inr (Or.inr (Or.inr (Or.inl ⟨k, Function.update_same t (TState.relCas k) s.ts⟩))))
        (fun k2 x h => TState.noConfusion h)
        (fun k2 v h => TState.noConfusion h)⟩
  | relLoadSome k x hts hnx =>
      have hhead := owner_head hq (Or.inr (Or.inr (Or.inl ⟨k, hts⟩)))
      refine ⟨q, qinv_update_head hq t (TState.handoff k x) hhead
        rfl rfl rfl rfl rfl rfl (by rw [hts]; rfl)
        (Or.inr (Or.inr (Or.inr (Or.inr (Or.inr (Or.inl
          ⟨k, x, Function.update_same t (TState.handoff k x) s.ts⟩))))))
        ?_ (fun k2 v h => TState.noConfusion h)⟩
      intro k2 x2 h
      injection h with h1 h2
      subst h2
      exact ⟨next_head_of_next_some hq hhead hnx, hnx⟩
  | relCasOk k hts htail =>
      exact ⟨[], qinv_relCasOk hq t k hts htail rfl rfl rfl rfl rfl⟩
  | relCasFail k hts htail =>
      refine ⟨q, qinv_update_head hq t (TState.relSpin k)
        (owner_head hq (Or.inr (Or.inr (Or.inr (Or.inl ⟨k, hts⟩)))))
        rfl rfl rfl rfl rfl rfl (by rw [hts]; rfl)
        (Or.inr (Or.inr (Or.inr (Or.inr (Or.inl
          ⟨k, Function.update_same t (TState.relSpin k) s.ts⟩)))))
        (fun k2 x h => TState.noConfusion h)
        (fun k2 v h => TState.noConfusion h)⟩
  | relSpinNone k hts hnx =>
      exact ⟨q, hq⟩
  | relSpinSome k x hts hnx =>
      have hhead := owner_head hq (Or.inr (Or.inr (Or.inr (Or.inr (Or.inl ⟨k, hts⟩)))))
      refine ⟨q, qinv_update_head hq t (TState.handoff k x) hhead
        rfl rfl rfl rfl rfl rfl (by rw [hts]; rfl)
        (Or.inr (Or.inr (Or.inr (Or.inr (Or.inr (Or.inl
          ⟨k, x, Function.update_same t (TState.handoff k x) s.ts⟩))))))
        ?_ (fun k2 v h => TState.noConfusion h)⟩
      intro k2 x2 h
      injection h with h1 h2
      subst h2
      exact ⟨next_head_of_next_some hq hhead hnx, hnx⟩
  | handoffStore k x hts =>
      exact qinv_handoff hq t x k hts rfl rfl rfl rfl rfl

/-- Every reachable state satisfies the invariant for some queue. -/
theorem reachable_inv {n : Nat} {iters : Nat} {s : GState n}
    (h : Reachable n iters s) : ∃ q, QInv s q := by
  induction h with
  | refl => exact ⟨[], qinv_init n⟩
  | tail hsteps hstep ih =>
      obtain ⟨q, hq⟩ := ih
      obtain ⟨t, ht⟩ := hstep
      exact step_preserves_qinv ht hq

/-- A thread inside a payload dereference owns the lock. -/
theorem inCritical_isOwnerState {n : Nat} {s : GState n} (t : Fin n)
    (h : inCritical (s.ts t) = true) : isOwnerState s t := by
  cases hts : s.ts t with
  | cs0 k => exact Or.inl ⟨k, hts⟩
  | cs1 k v => exact Or.inr (Or.inl ⟨k, v, hts⟩)
  | ready k => rw [hts] at h; exact Bool.noConfusion h
  | toSwap k => rw [hts] at h; exact Bool.noConfusion h
  | tryCas k => rw [hts] at h; exact Bool.noConfusion h
  | toPublish k p => rw [hts] at h; exact Bool.noConfusion h
  | spinning k => rw [hts] at h; exact Bool.noConfusion h
  | rel0 k => rw [hts] at h; exact Bool.noConfusion h
  | relCas k => rw [hts] at h; exact Bool.noConfusion h
  | relSpin k => rw [hts] at h; exact Bool.noConfusion h
  | handoff k x => rw [hts] at h; exact Bool.noConfusion h

/-- C1: with any number n of threads, n at least 1, each performing 1000
increments of the shared counter under lock and guard-drop cycles on a
single mutex, every interleaving that completes all threads leaves the
counter at exactly n * 1000, and at no reachable instant are two guards of
the same mutex dereferencing the payload concurrently. -/
theorem mutual_exclusion_and_final_count (n : Nat) (s : GState n)
    (hn : 1 ≤ n) (hreach : Reachable n 1000 s) :
    ((∀ t : Fin n, s.ts t = TState.ready 1000) → s.data = n * 1000) ∧
    (∀ t1 t2 : Fin n, t1 ≠ t2 → inCritical (s.ts t1) = true →
      inCritical (s.ts t2) = true → False) := by
  obtain ⟨q, hq⟩ := reachable_inv hreach
  constructor
  · intro hall
    rw [hq.data_sum]
    have h2 : ∀ t : Fin n, kOf (s.ts t) = 1000 := by
      intro t
      rw [hall t]
      rfl
    calc (∑ t : Fin n, kOf (s.ts t)) = ∑ _t : Fin n, 1000 :=
          Finset.sum_congr rfl (fun t _ => h2 t)
      _ = n * 1000 := by simp [Finset.sum_const, Finset.card_univ]
  · intro t1 t2 hne h1 h2
    have hh1 := owner_head hq (inCritical_isOwnerState t1 h1)
    have hh2 := owner_head hq (inCritical_isOwnerState t2 h2)
    rw [hh1] at hh2
    exact hne (Option.some.inj hh2)

/-- C1 witness: one thread, at the initial state. -/
theorem mutual_exclusion_and_final_count_witness :
    ((∀ t : Fin 1, (initState 1).ts t = TState.ready 1000) →
      (initState 1).data = 1 * 1000) ∧
    (∀ t1 t2 : Fin 1, t1 ≠ t2 → inCritical ((initState 1).ts t1) = true →
      inCritical ((initState 1).ts t2) = true → False) :=
  mutual_exclusion_and_final_count 1 (initState 1) (by omega)
    Relation.ReflTransGen.refl

/-- C6: the constructor returns an unlocked mutex (null tail) holding the
given value, and in every state reachable by interleaving try_lock, lock
and guard-drop steps, the tail is null exactly when no thread holds or
awaits the lock; this holds initially since the initial state is
reachable. -/
theorem new_unlocked_and_tail_null_iff_idle (T : Type) (v : T) (n iters : Nat)
    (s : GState n) (hreach : Reachable n iters s) :
    (Mutex.new v).queue = none ∧ (Mutex.new v).data = v ∧
    (initState n).tail = none ∧
    (s.tail = none ↔ ∀ t : Fin n, inQueue (s.ts t) = false) := by
  obtain ⟨q, hq⟩ := reachable_inv hreach
  refine ⟨rfl, rfl, rfl, ?_, ?_⟩
  · intro htail t
    have hqnil : q = [] := by
      apply eq_nil_of_getLast?_eq_none
      rw [← hq.tail_eq]
      exact htail
    have h2 := hq.mem_iff t
    rw [hqnil] at h2
    cases hb : inQueue (s.ts t)
    · rfl
    · exfalso
      have h3 := h2.mpr hb
      cases h3
  · intro hall
    rw [hq.tail_eq]
    cases hqq : q with
    | nil => rfl
    | cons a r =>
        exfalso
        have h2 := (hq.mem_iff a).mp (by rw [hqq]; exact List.mem_cons_self a r)
        rw [hall a] at h2
        exact Bool.noConfusion h2

/-- C6 witness: the initial state of one thread. -/
theorem new_unlocked_and_tail_null_iff_idle_witness :
    (Mutex.new 5).queue = none ∧ (Mutex.new 5).data = 5 ∧
    (initState 1).tail = none ∧
    ((initState 1).tail = none ↔ ∀ t : Fin 1, inQueue ((initState 1).ts t) = false) :=
  new_unlocked_and_tail_null_iff_idle Nat 5 1 0 (initState 1)
    Relation.ReflTransGen.refl

end Mcs
